import Mathlib

/-!
Verification of the five integer-key sorting algorithms of the repository
(`sorting.h` / `sorting.cpp`) and of the `verify` oracle of `main.cpp`.

The C++ code is shallowly embedded: `std::vector<Record>` becomes
`List Record`, machine `int` keys become `Int` (the spec treats key-span
overflow as a caller precondition violation, so unbounded integers model the
in-range behaviour), index-addressed auxiliary arrays (`count`, `output`,
`buckets`, `holes`) become total functions out of `Nat` updated pointwise,
and each `for` loop becomes a structurally recursive function processing the
same elements in the same order.
-/

/-- Record is the sortable entity of `sorting.h`: an integer key and an
origin identifier used only to observe stability. -/
structure Record where
  key : Int
  id : Int
deriving DecidableEq, Repr

/-- Single step of the min/max scan of `getMinMax` in `sorting.cpp`
(lines 11-14): fold one record into the running `(minVal, maxVal)` pair. -/
def minmaxStep (mm : Int × Int) (r : Record) : Int × Int :=
  (if r.key < mm.1 then r.key else mm.1, if r.key > mm.2 then r.key else mm.2)

/-- Helper `getMinMax` of `sorting.cpp` (lines 7-15): on a non-empty vector it
initialises both bounds with `arr[0].key` and then scans every record; on an
empty vector the C++ leaves the out-parameters untouched, which the callers
short-circuit, so the value `(0, 0)` returned here is never relied upon. -/
def getMinMax : List Record → Int × Int
  | [] => (0, 0)
  | a :: t => (a :: t).foldl minmaxStep (a.key, a.key)

theorem foldl_minmaxStep_fst_le (l : List Record) (mm : Int × Int) :
    (l.foldl minmaxStep mm).1 ≤ mm.1 := by
  induction l generalizing mm with
  | nil => simp
  | cons r t ih =>
    refine le_trans (ih (minmaxStep mm r)) ?_
    simp only [minmaxStep]
    split <;> omega

theorem le_foldl_minmaxStep_snd (l : List Record) (mm : Int × Int) :
    mm.2 ≤ (l.foldl minmaxStep mm).2 := by
  induction l generalizing mm with
  | nil => simp
  | cons r t ih =>
    refine le_trans ?_ (ih (minmaxStep mm r))
    simp only [minmaxStep]
    split <;> omega

theorem foldl_minmaxStep_bounds (l : List Record) (mm : Int × Int) :
    ∀ r ∈ l, (l.foldl minmaxStep mm).1 ≤ r.key ∧ r.key ≤ (l.foldl minmaxStep mm).2 := by
  induction l generalizing mm with
  | nil => simp
  | cons a t ih =>
    intro r hr
    rcases List.mem_cons.mp hr with h | h
    · subst h
      constructor
      · refine le_trans (foldl_minmaxStep_fst_le t (minmaxStep mm r)) ?_
        simp only [minmaxStep]
        split <;> omega
      · refine le_trans ?_ (le_foldl_minmaxStep_snd t (minmaxStep mm r))
        simp only [minmaxStep]
        split <;> omega
    · exact ih (minmaxStep mm a) r h

/-- Every key of a non-empty list lies between the scanned minimum and
maximum. -/
theorem getMinMax_bounds (arr : List Record) :
    ∀ r ∈ arr, (getMinMax arr).1 ≤ r.key ∧ r.key ≤ (getMinMax arr).2 := by
  cases arr with
  | nil => simp
  | cons a t => exact foldl_minmaxStep_bounds (a :: t) (a.key, a.key)

theorem getMinMax_le (arr : List Record) (hne : arr ≠ []) :
    (getMinMax arr).1 ≤ (getMinMax arr).2 := by
  cases arr with
  | nil => exact absurd rfl hne
  | cons a t =>
    have h := getMinMax_bounds (a :: t) a (List.mem_cons_self a t)
    omega

theorem getMinMax_const (arr : List Record) (c : Int)
    (hc : ∀ r ∈ arr, r.key = c) (hne : arr ≠ []) : getMinMax arr = (c, c) := by
  cases arr with
  | nil => exact absurd rfl hne
  | cons a t =>
    show (a :: t).foldl minmaxStep (a.key, a.key) = (c, c)
    have ha : a.key = c := hc a (List.mem_cons_self a t)
    rw [ha]
    have : ∀ l : List Record, (∀ r ∈ l, r.key = c) → l.foldl minmaxStep (c, c) = (c, c) := by
      intro l
      induction l with
      | nil => intro _; rfl
      | cons b u ih =>
        intro hb
        have hbc : b.key = c := hb b (List.mem_cons_self b u)
        have : minmaxStep (c, c) b = (c, c) := by
          simp [minmaxStep, hbc]
        rw [List.foldl_cons, this]
        exact ih fun r hr => hb r (List.mem_cons_of_mem b hr)
    exact this (a :: t) hc

/-- Number of records of `l` whose bucket index under `f` is exactly `j`. -/
def classCount (f : Record → Nat) (j : Nat) (l : List Record) : Nat :=
  (l.filter fun r => f r = j).length

/-- Number of records of `l` whose bucket index under `f` is at most `j`. -/
def cumCount (f : Record → Nat) (j : Nat) (l : List Record) : Nat :=
  (l.filter fun r => f r ≤ j).length

/-- Number of records of `l` whose bucket index under `f` is below `j`. -/
def lowCount (f : Record → Nat) (j : Nat) (l : List Record) : Nat :=
  (l.filter fun r => f r < j).length

theorem cumCount_eq (f : Record → Nat) (j : Nat) (l : List Record) :
    cumCount f j l = lowCount f j l + classCount f j l := by
  induction l with
  | nil => rfl
  | cons r t ih =>
    simp only [cumCount, lowCount, classCount, List.filter_cons] at ih ⊢
    by_cases h1 : f r ≤ j <;> by_cases h2 : f r < j <;> by_cases h3 : f r = j <;>
      simp [h1, h2, h3] <;> omega

theorem lowCount_succ (f : Record → Nat) (j : Nat) (l : List Record) :
    lowCount f (j + 1) l = cumCount f j l := by
  unfold lowCount cumCount
  refine congrArg List.length (List.filter_congr ?_)
  intro r _
  simp [Nat.lt_succ_iff]

theorem lowCount_zero (f : Record → Nat) (l : List Record) : lowCount f 0 l = 0 := by
  unfold lowCount
  simp

theorem lowCount_mono (f : Record → Nat) {j j' : Nat} (h : j ≤ j') (l : List Record) :
    lowCount f j l ≤ lowCount f j' l := by
  induction l with
  | nil => exact le_refl _
  | cons r t ih =>
    simp only [lowCount, List.filter_cons] at ih ⊢
    by_cases h1 : f r < j <;> by_cases h2 : f r < j' <;> simp [h1, h2] <;> omega

theorem cumCount_add_class_le (f : Record → Nat) {j j' : Nat} (h : j < j')
    (l : List Record) : cumCount f j l + classCount f j' l ≤ cumCount f j' l := by
  rw [cumCount_eq f j' l, ← lowCount_succ]
  have := lowCount_mono f (show j + 1 ≤ j' by omega) l
  omega

theorem classCount_le_cumCount (f : Record → Nat) (j : Nat) (l : List Record) :
    classCount f j l ≤ cumCount f j l := by
  rw [cumCount_eq]
  omega

theorem classCount_eq_zero_of_lt (f : Record → Nat) {R j : Nat} (l : List Record)
    (hf : ∀ r ∈ l, f r < R) (hj : R ≤ j) : classCount f j l = 0 := by
  unfold classCount
  rw [List.length_eq_zero]
  rw [List.filter_eq_nil_iff]
  intro r hr
  have := hf r hr
  simp only [decide_eq_true_eq]
  omega

theorem lowCount_eq_length (f : Record → Nat) {R : Nat} (l : List Record)
    (hf : ∀ r ∈ l, f r < R) : lowCount f R l = l.length := by
  unfold lowCount
  refine congrArg List.length (List.filter_eq_self.mpr ?_)
  intro r hr
  simp only [decide_eq_true_eq]
  exact hf r hr

theorem classCount_cons (f : Record → Nat) (j : Nat) (r : Record) (t : List Record) :
    classCount f j (r :: t) = if f r = j then classCount f j t + 1 else classCount f j t := by
  unfold classCount
  rw [List.filter_cons]
  by_cases h : f r = j <;> simp [h]

/-- Frequency-count loop: `for (rec : arr) count[f rec]++`, the count array
modelled as a total function out of `Nat`. Used by both counting sorts
(`count[rec.key - minVal]++`, lines 29-31 and 60-62 of `sorting.cpp`) and by
each radix pass (`count[(arr[i].key / exp) % 10]++`, line 96-97). -/
def bumpLoop (f : Record → Nat) : List Record → (Nat → Nat) → (Nat → Nat)
  | [], cnt => cnt
  | r :: rest, cnt => bumpLoop f rest fun j => if j = f r then cnt j + 1 else cnt j

theorem bumpLoop_eq (f : Record → Nat) (l : List Record) (cnt : Nat → Nat) (j : Nat) :
    bumpLoop f l cnt j = cnt j + classCount f j l := by
  induction l generalizing cnt with
  | nil => simp [bumpLoop, classCount]
  | cons r t ih =>
    rw [bumpLoop, ih, classCount_cons]
    by_cases h : f r = j
    · simp [h]
      omega
    · have : ¬ j = f r := fun hc => h hc.symm
      simp [h, this]

/-- In-place cumulative-sum loop `for (i = 1; i < range; i++) count[i] += count[i-1]`
(lines 34-36 and 99-100 of `sorting.cpp`); the list argument carries the index
sequence `[1, ..., range-1]` still to process. -/
def cumLoop : List Nat → (Nat → Nat) → (Nat → Nat)
  | [], cnt => cnt
  | i :: is, cnt => cumLoop is fun j => if j = i then cnt i + cnt (i - 1) else cnt j

/-- Bucket-scatter loop: `for (rec : arr) buckets[f rec].push_back(rec)`,
the vector of vectors modelled as a total function into lists. Used by
`bucketSort` (line 128-132) and `pigeonholeSort` (lines 158-160). -/
def scatterLoop (f : Record → Nat) : List Record → (Nat → List Record) → (Nat → List Record)
  | [], bs => bs
  | r :: rest, bs => scatterLoop f rest fun j => if j = f r then bs j ++ [r] else bs j

theorem scatterLoop_eq (f : Record → Nat) (l : List Record) (bs : Nat → List Record)
    (j : Nat) : scatterLoop f l bs j = bs j ++ l.filter fun r => f r = j := by
  induction l generalizing bs with
  | nil => simp [scatterLoop]
  | cons r t ih =>
    rw [scatterLoop, ih, List.filter_cons]
    by_cases h : f r = j
    · subst h
      simp
    · have hj : ¬ j = f r := fun hc => h hc.symm
      simp [h, hj]

theorem cumCount_succ (f : Record → Nat) (j : Nat) (l : List Record) :
    cumCount f (j + 1) l = cumCount f j l + classCount f (j + 1) l := by
  rw [cumCount_eq f (j + 1) l, lowCount_succ]

/-- After running the cumulative loop over the index list `[k+1, ..., k+m]`
on a count array holding cumulative counts up to `k` and raw class counts
above `k`, the array holds cumulative counts up to `k+m` and raw class
counts above. -/
theorem cumLoop_spec (f : Record → Nat) (A : List Record) :
    ∀ (m k : Nat) (cnt : Nat → Nat),
      (∀ j, j ≤ k → cnt j = cumCount f j A) →
      (∀ j, k < j → cnt j = classCount f j A) →
      (∀ j, j ≤ k + m → cumLoop (List.range' (k + 1) m) cnt j = cumCount f j A)
      ∧ (∀ j, k + m < j → cumLoop (List.range' (k + 1) m) cnt j = classCount f j A) := by
  intro m
  induction m with
  | zero =>
    intro k cnt h1 h2
    exact ⟨fun j hj => h1 j (by omega), fun j hj => h2 j (by omega)⟩
  | succ m ih =>
    intro k cnt h1 h2
    have hr : List.range' (k + 1) (m + 1) = (k + 1) :: List.range' (k + 2) m := by
      simp [List.range']
    rw [hr]
    show (∀ j, j ≤ k + (m + 1) →
        cumLoop (List.range' (k + 2) m)
          (fun j => if j = k + 1 then cnt (k + 1) + cnt (k + 1 - 1) else cnt j) j
          = cumCount f j A) ∧ _
    have step1 : ∀ j, j ≤ k + 1 →
        (if j = k + 1 then cnt (k + 1) + cnt (k + 1 - 1) else cnt j) = cumCount f j A := by
      intro j hj
      by_cases hjk : j = k + 1
      · subst hjk
        rw [if_pos rfl]
        have e1 : cnt (k + 1) = classCount f (k + 1) A := h2 (k + 1) (by omega)
        have e2 : cnt (k + 1 - 1) = cumCount f k A := by
          have : k + 1 - 1 = k := by omega
          rw [this]
          exact h1 k (le_refl k)
        rw [e1, e2, cumCount_succ]
        omega
      · rw [if_neg hjk]
        exact h1 j (by omega)
    have step2 : ∀ j, k + 1 < j →
        (if j = k + 1 then cnt (k + 1) + cnt (k + 1 - 1) else cnt j) = classCount f j A := by
      intro j hj
      rw [if_neg (by omega)]
      exact h2 j (by omega)
    have hk2 : k + 2 = (k + 1) + 1 := by omega
    rw [hk2]
    obtain ⟨c1, c2⟩ := ih (k + 1)
      (fun j => if j = k + 1 then cnt (k + 1) + cnt (k + 1 - 1) else cnt j) step1 step2
    exact ⟨fun j hj => c1 j (by omega), fun j hj => c2 j (by omega)⟩

/-- Back-to-front placement loop of the stable counting sort (lines 39-43 of
`sorting.cpp`) and of each radix pass (lines 102-106): for `i` from the last
index down to `0`, `output[count[f arr[i]] - 1] = arr[i]; count[f arr[i]]--`.
Processing `r :: rest` first recurses on `rest` (elements to the right of `r`
are visited earlier by the downward loop) and then places `r`. -/
def placeRec (f : Record → Nat) : List Record → (Nat → Nat) → (Nat → Record) →
    (Nat → Nat) × (Nat → Record)
  | [], cnt, out => (cnt, out)
  | r :: rest, cnt, out =>
    (fun j => if j = f r then (placeRec f rest cnt out).1 (f r) - 1
              else (placeRec f rest cnt out).1 j,
     fun q => if q = (placeRec f rest cnt out).1 (f r) - 1 then r
              else (placeRec f rest cnt out).2 q)

/-- Invariant of the placement loop: starting from a count array `cnt` whose
value at each class `j` bounds the class size, with the write windows
`[cnt j - classCount j, cnt j)` pairwise disjoint, the loop ends with
`cnt j` decremented by the class size, the window of class `j` holding
exactly the class-`j` records of `s` in their original order, and every
position outside all windows untouched. -/
theorem placeRec_spec (f : Record → Nat) :
    ∀ (s : List Record) (cnt : Nat → Nat) (out : Nat → Record),
      (∀ j, classCount f j s ≤ cnt j) →
      (∀ j j' q, j ≠ j' → cnt j - classCount f j s ≤ q → q < cnt j →
         cnt j' - classCount f j' s ≤ q → q < cnt j' → False) →
      (∀ j, (placeRec f s cnt out).1 j = cnt j - classCount f j s)
      ∧ (∀ j t, t < classCount f j s →
          (placeRec f s cnt out).2 (cnt j - classCount f j s + t)
            = (s.filter fun r => f r = j).getD t (Record.mk 0 0))
      ∧ (∀ q, (∀ j, cnt j - classCount f j s ≤ q → q < cnt j → False) →
          (placeRec f s cnt out).2 q = out q) := by
  intro s
  induction s with
  | nil =>
    intro cnt out _ _
    refine ⟨fun j => ?_, fun j t ht => ?_, fun q _ => rfl⟩
    · simp [placeRec, classCount]
    · simp [classCount] at ht
  | cons r rest ih =>
    intro cnt out hle hdisj
    have hccons : ∀ j, classCount f j (r :: rest)
        = if f r = j then classCount f j rest + 1 else classCount f j rest :=
      fun j => classCount_cons f j r rest
    have hidx : classCount f (f r) (r :: rest) = classCount f (f r) rest + 1 := by
      rw [hccons (f r), if_pos rfl]
    have hoth : ∀ j, f r ≠ j → classCount f j (r :: rest) = classCount f j rest := by
      intro j hj
      rw [hccons j, if_neg hj]
    have hrest_le : ∀ j, classCount f j rest ≤ cnt j := by
      intro j
      have h1 := hle j
      rw [hccons j] at h1
      by_cases hj : f r = j
      · rw [if_pos hj] at h1
        omega
      · rw [if_neg hj] at h1
        omega
    have hsub : ∀ j, cnt j - classCount f j (r :: rest) ≤ cnt j - classCount f j rest := by
      intro j
      rw [hccons j]
      by_cases hj : f r = j
      · rw [if_pos hj]
        omega
      · rw [if_neg hj]
    have hrest_disj : ∀ j j' q, j ≠ j' → cnt j - classCount f j rest ≤ q → q < cnt j →
        cnt j' - classCount f j' rest ≤ q → q < cnt j' → False := by
      intro j j' q hne hq1 hq2 hq3 hq4
      exact hdisj j j' q hne (le_trans (hsub j) hq1) hq2 (le_trans (hsub j') hq3) hq4
    obtain ⟨ha, hb, hc⟩ := ih cnt out hrest_le hrest_disj
    have hpstar : (placeRec f rest cnt out).1 (f r) - 1
        = cnt (f r) - classCount f (f r) (r :: rest) := by
      rw [ha (f r)]
      omega
    have hcnt_idx_pos : classCount f (f r) (r :: rest) ≤ cnt (f r) := hle (f r)
    refine ⟨?_, ?_, ?_⟩
    · intro j
      simp only [placeRec]
      by_cases hj : j = f r
      · subst hj
        rw [if_pos rfl]
        exact hpstar
      · rw [if_neg hj, ha j, hoth j fun h => hj h.symm]
    · intro j t ht
      simp only [placeRec]
      by_cases hj : f r = j
      · subst hj
        cases t with
        | zero =>
          rw [if_pos (by rw [hpstar]; omega)]
          simp
        | succ u =>
          have hu : u < classCount f (f r) rest := by
            rw [hidx] at ht
            omega
          have h1 := hle (f r)
          rw [if_neg (by rw [hpstar]; omega)]
          have hq : cnt (f r) - classCount f (f r) (r :: rest) + (u + 1)
              = cnt (f r) - classCount f (f r) rest + u := by
            rw [hidx] at h1 ⊢
            omega
          rw [hq, hb (f r) u hu]
          simp
      · have hcj : classCount f j (r :: rest) = classCount f j rest := hoth j hj
        have hjlt := hle j
        have hqne : cnt j - classCount f j (r :: rest) + t
            ≠ (placeRec f rest cnt out).1 (f r) - 1 := by
          rw [hpstar]
          intro heq
          have h1 := hle (f r)
          rw [hidx] at h1
          refine hdisj j (f r) (cnt j - classCount f j (r :: rest) + t)
            (fun h => hj h.symm) (by omega) (by omega) (by omega) (by omega)
        rw [if_neg hqne, hcj, hb j t (by rw [← hcj]; exact ht)]
        simp [List.filter_cons, hj]
    · intro q hq
      simp only [placeRec]
      have hqne : q ≠ (placeRec f rest cnt out).1 (f r) - 1 := by
        rw [hpstar]
        intro heq
        have h1 := hle (f r)
        rw [hidx] at h1
        exact hq (f r) (by omega) (by omega)
      rw [if_neg hqne]
      refine hc q ?_
      intro j hq1 hq2
      exact hq j (le_trans (hsub j) hq1) hq2

/-- Reading the output array back as a list of length `n` (the copy-back
`arr = output` of lines 46 and 107 of `sorting.cpp`). -/
def collect (n : Nat) (out : Nat → Record) : List Record :=
  (List.range n).map out

/-- Generic counting pass shared by `countingSortStable` (lines 25-46 of
`sorting.cpp`, with class index `key - minVal` and `R = range`) and by each
digit pass of `radixSortLSD` (lines 92-107, with class index
`(key / exp) % 10` and `R = 10`): frequency count, in-place cumulative sum
over indices `1..R-1`, back-to-front placement into a zero-initialised
output array of the input's length, copy back. -/
def countingPass (f : Record → Nat) (R : Nat) (arr : List Record) : List Record :=
  collect arr.length
    (placeRec f arr (cumLoop (List.range' 1 (R - 1)) (bumpLoop f arr fun _ => 0))
      fun _ => Record.mk 0 0).2

/-- Concatenation, in ascending class order, of the class filters: the
characterisation a counting pass is proved equal to. -/
def distribute (f : Record → Nat) (R : Nat) (l : List Record) : List Record :=
  ((List.range R).map fun j => l.filter fun r => f r = j).flatten

theorem range'_split (s c d : Nat) :
    List.range' s (c + d) = List.range' s c ++ List.range' (s + c) d := by
  have h := List.range'_append s c d 1
  simp only [one_mul] at h
  rw [Nat.add_comm c d]
  exact h.symm

theorem lowCount_add_class (f : Record → Nat) (j : Nat) (A : List Record) :
    lowCount f (j + 1) A = lowCount f j A + classCount f j A := by
  rw [lowCount_succ, cumCount_eq]

/-- Assembly of the output array: if position `lowCount j + t` holds the
`t`-th class-`j` record for every class and offset, reading the first
`lowCount R` positions yields the concatenation of the class filters. -/
theorem collect_segments (f : Record → Nat) (A : List Record) (out : Nat → Record)
    (hval : ∀ j t, t < classCount f j A →
      out (lowCount f j A + t) = (A.filter fun r => f r = j).getD t (Record.mk 0 0)) :
    ∀ (m j : Nat), j + m = R' →
      (List.range' (lowCount f j A) (lowCount f R' A - lowCount f j A)).map out
        = ((List.range' j m).map fun i => A.filter fun r => f r = i).flatten := by
  intro m
  induction m with
  | zero =>
    intro j hj
    have : j = R' := by omega
    subst this
    simp
  | succ m ih =>
    intro j hj
    have h1 : lowCount f (j + 1) A = lowCount f j A + classCount f j A :=
      lowCount_add_class f j A
    have h2 : lowCount f (j + 1) A ≤ lowCount f R' A :=
      lowCount_mono f (by omega) A
    have hlen : lowCount f R' A - lowCount f j A
        = classCount f j A + (lowCount f R' A - lowCount f (j + 1) A) := by
      omega
    rw [hlen, range'_split, List.map_append]
    have hpiece : (List.range' (lowCount f j A) (classCount f j A)).map out
        = A.filter fun r => f r = j := by
      refine List.ext_get ?_ ?_
      · simp [classCount]
      · intro i hi1 hi2
        rw [List.get_map]
        have hi : i < classCount f j A := by
          simpa using hi1
        have hr : (List.range' (lowCount f j A) (classCount f j A)).get
            ⟨i, by simpa using hi⟩ = lowCount f j A + i := by
          have := List.getElem_range' i (by simpa using hi :
            i < (List.range' (lowCount f j A) (classCount f j A) 1).length)
          simpa using this
        rw [hr, hval j i hi, List.getD_eq_get _ _ hi2]
    have hrest : (List.range' (lowCount f j A + classCount f j A)
          (lowCount f R' A - lowCount f (j + 1) A)).map out
        = ((List.range' (j + 1) m).map fun i => A.filter fun r => f r = i).flatten := by
      rw [← h1]
      exact ih (j + 1) (by omega)
    rw [hpiece, hrest, List.range'_succ]
    simp

/-- Characterisation of a counting pass: frequency count, cumulative sum and
back-to-front placement produce exactly the concatenation of the class
filters in ascending class order. -/
theorem countingPass_eq_distribute (f : Record → Nat) (R : Nat) (arr : List Record)
    (hf : ∀ r ∈ arr, f r < R) (hR : 0 < R) :
    countingPass f R arr = distribute f R arr := by
  have hfreq_eq : ∀ j, bumpLoop f arr (fun _ => 0) j = classCount f j arr := by
    intro j
    rw [bumpLoop_eq]
    omega
  obtain ⟨hclow, hchigh⟩ := cumLoop_spec f arr (R - 1) 0 (bumpLoop f arr fun _ => 0)
    (fun j hj => by
      have hj0 : j = 0 := by omega
      subst hj0
      rw [hfreq_eq 0, cumCount_eq, lowCount_zero]
      omega)
    (fun j _ => hfreq_eq j)
  unfold countingPass
  set cum : Nat → Nat :=
    cumLoop (List.range' 1 (R - 1)) (bumpLoop f arr fun _ => 0) with hcumdef
  have hcum_lt : ∀ j, j < R → cum j = cumCount f j arr := by
    intro j hj
    have h := hclow j (by omega)
    rw [hcumdef]
    simpa using h
  have hcum_ge : ∀ j, R ≤ j → cum j = 0 := by
    intro j hj
    have h := hchigh j (by omega)
    rw [hcumdef]
    have h2 : classCount f j arr = 0 := classCount_eq_zero_of_lt f arr hf hj
    rw [h2] at h
    simpa using h
  have hle : ∀ j, classCount f j arr ≤ cum j := by
    intro j
    by_cases hj : j < R
    · rw [hcum_lt j hj]
      exact classCount_le_cumCount f j arr
    · rw [hcum_ge j (by omega), classCount_eq_zero_of_lt f arr hf (by omega)]
  have hwin : ∀ j, j < R → cum j - classCount f j arr = lowCount f j arr := by
    intro j hj
    rw [hcum_lt j hj, cumCount_eq]
    omega
  have hdisj : ∀ j j' q, j ≠ j' → cum j - classCount f j arr ≤ q → q < cum j →
      cum j' - classCount f j' arr ≤ q → q < cum j' → False := by
    intro j j' q hne h1 h2 h3 h4
    by_cases hjR : j < R
    · by_cases hj'R : j' < R
      · rcases Nat.lt_or_ge j j' with hlt | hge
        · rw [hcum_lt j hjR] at h2
          rw [hwin j' hj'R] at h3
          have hchain : cumCount f j arr ≤ lowCount f j' arr := by
            rw [← lowCount_succ]
            exact lowCount_mono f (by omega) arr
          omega
        · have hlt' : j' < j := by omega
          rw [hcum_lt j' hj'R] at h4
          rw [hwin j hjR] at h1
          have hchain : cumCount f j' arr ≤ lowCount f j arr := by
            rw [← lowCount_succ]
            exact lowCount_mono f (by omega) arr
          omega
      · rw [hcum_ge j' (by omega)] at h4
        omega
    · rw [hcum_ge j (by omega)] at h2
      omega
  obtain ⟨ha, hb, hc⟩ := placeRec_spec f arr cum (fun _ => Record.mk 0 0) hle hdisj
  have hval : ∀ j t, t < classCount f j arr →
      (placeRec f arr cum fun _ => Record.mk 0 0).2 (lowCount f j arr + t)
        = (arr.filter fun r => f r = j).getD t (Record.mk 0 0) := by
    intro j t ht
    by_cases hj : j < R
    · have h := hb j t ht
      rwa [hwin j hj] at h
    · exfalso
      rw [classCount_eq_zero_of_lt f arr hf (by omega)] at ht
      omega
  have hlowR : lowCount f R arr = arr.length := lowCount_eq_length f arr hf
  have hseg := @collect_segments R f arr ((placeRec f arr cum fun _ => Record.mk 0 0).2)
    hval R 0 (Nat.zero_add R)
  rw [lowCount_zero] at hseg
  unfold collect distribute
  rw [List.range_eq_range' arr.length, List.range_eq_range' R, ← hlowR]
  simpa using hseg

theorem flatten_map_range_single (g : Nat → List Record) (R j₀ : Nat) (hj : j₀ < R)
    (h0 : ∀ j, j < R → j ≠ j₀ → g j = []) :
    ((List.range R).map g).flatten = g j₀ := by
  induction R with
  | zero => omega
  | succ R ih =>
    rw [List.range_succ, List.map_append, List.flatten_append]
    by_cases hR : j₀ = R
    · subst hR
      have hnil : ((List.range j₀).map g).flatten = [] := by
        rw [List.flatten_eq_nil_iff]
        intro bl hbl
        rw [List.mem_map] at hbl
        obtain ⟨j, hj1, hj2⟩ := hbl
        rw [List.mem_range] at hj1
        rw [← hj2]
        exact h0 j (by omega) (by omega)
      rw [hnil]
      simp
    · have hj' : j₀ < R := by omega
      rw [ih hj' fun j h1 h2 => h0 j (by omega) h2]
      have hnil : g R = [] := h0 R (by omega) fun h => hR h.symm
      simp [hnil]

theorem sum_map_range_single (g : Nat → Nat) (R j₀ : Nat) (hj : j₀ < R)
    (h0 : ∀ j, j < R → j ≠ j₀ → g j = 0) :
    ((List.range R).map g).sum = g j₀ := by
  induction R with
  | zero => omega
  | succ R ih =>
    rw [List.range_succ, List.map_append, List.sum_append]
    by_cases hR : j₀ = R
    · subst hR
      have hz : ((List.range j₀).map g).sum = 0 := by
        apply List.sum_eq_zero
        intro x hx
        rw [List.mem_map] at hx
        obtain ⟨j, hj1, hj2⟩ := hx
        rw [List.mem_range] at hj1
        rw [← hj2]
        exact h0 j (by omega) (by omega)
      rw [hz]
      simp
    · have hj' : j₀ < R := by omega
      rw [ih hj' fun j h1 h2 => h0 j (by omega) h2]
      have hz : g R = 0 := h0 R (by omega) fun h => hR h.symm
      simp [hz]

/-- Every record of `l` ends in exactly its own class block, so `distribute`
is a permutation of `l`. -/
theorem distribute_perm (f : Record → Nat) (R : Nat) (l : List Record)
    (hf : ∀ r ∈ l, f r < R) : (distribute f R l).Perm l := by
  rw [List.perm_iff_count]
  intro x
  rw [distribute, List.count_flatten, List.map_map]
  by_cases hx : x ∈ l
  · have hfx : f x < R := hf x hx
    have hsum := sum_map_range_single
      (fun j => (List.count x (l.filter fun r => f r = j))) R (f x) hfx ?zeros
    case zeros =>
      intro j h1 h2
      rw [List.count_eq_zero]
      intro hmem
      rw [List.mem_filter] at hmem
      have : f x = j := by simpa using hmem.2
      omega
    have hcomp : ((List.range R).map
          ((fun bl => List.count x bl) ∘ fun j => l.filter fun r => f r = j)).sum
        = ((List.range R).map fun j => List.count x (l.filter fun r => f r = j)).sum := rfl
    rw [hcomp, hsum]
    simp [List.count_filter]
  · have hz : ∀ j, List.count x (l.filter fun r => f r = j) = 0 := by
      intro j
      rw [List.count_eq_zero]
      intro hmem
      rw [List.mem_filter] at hmem
      exact hx hmem.1
    have : ((List.range R).map
          ((fun bl => List.count x bl) ∘ fun j => l.filter fun r => f r = j)).sum = 0 := by
      apply List.sum_eq_zero
      intro y hy
      rw [List.mem_map] at hy
      obtain ⟨j, _, hj2⟩ := hy
      rw [← hj2]
      exact hz j
    rw [this, List.count_eq_zero.mpr hx]

/-- Filter of `distribute` by a predicate confined to a single class: the
block of that class absorbs the whole filter. -/
theorem distribute_filter (f : Record → Nat) (R : Nat) (l : List Record)
    (P : Record → Bool) (j₀ : Nat) (hj : j₀ < R)
    (hP : ∀ r ∈ l, P r = true → f r = j₀) :
    (distribute f R l).filter P = l.filter P := by
  rw [distribute, List.filter_flatten, List.map_map]
  have hblocks : ∀ j, j < R → j ≠ j₀ → (l.filter fun r => f r = j).filter P = [] := by
    intro j h1 h2
    rw [List.filter_eq_nil_iff]
    intro r hr hPr
    rw [List.mem_filter] at hr
    have hj' : f r = j := by simpa using hr.2
    have := hP r hr.1 hPr
    omega
  have hcomp : (List.range R).map (List.filter P ∘ fun j => l.filter fun r => f r = j)
      = (List.range R).map fun j => (l.filter fun r => f r = j).filter P := rfl
  rw [hcomp, flatten_map_range_single (fun j => (l.filter fun r => f r = j).filter P)
      R j₀ hj hblocks]
  rw [List.filter_filter]
  refine List.filter_congr ?_
  intro r hr
  by_cases hPr : P r = true
  · have := hP r hr hPr
    simp [hPr, this]
  · simp at hPr
    simp [hPr]

/-- Sortedness of `distribute`: each block is internally sorted and any two
records of distinct classes are ordered by the relation. -/
theorem distribute_sorted (f : Record → Nat) (R : Nat) (l : List Record)
    (le : Record → Record → Prop)
    (hblock : ∀ j, List.Pairwise le (l.filter fun r => f r = j))
    (hcross : ∀ a ∈ l, ∀ b ∈ l, f a < f b → le a b) :
    List.Pairwise le (distribute f R l) := by
  rw [distribute, List.pairwise_flatten]
  constructor
  · intro bl hbl
    rw [List.mem_map] at hbl
    obtain ⟨j, _, hj2⟩ := hbl
    rw [← hj2]
    exact hblock j
  · rw [List.pairwise_map]
    refine List.Pairwise.imp_of_mem ?_ (List.pairwise_lt_range R)
    intro j j' _ _ hlt x hx y hy
    rw [List.mem_filter] at hx hy
    refine hcross x hx.1 y hy.1 ?_
    have h1 : f x = j := by simpa using hx.2
    have h2 : f y = j' := by simpa using hy.2
    omega

/-- Class index `key - minVal` used by the stable counting sort and the
pigeonhole sort to address the count array / hole vector. -/
def keyIdx (arr : List Record) (r : Record) : Nat :=
  (r.key - (getMinMax arr).1).toNat

/-- Size `range = maxVal - minVal + 1` of the count array / hole vector
(lines 23 and 154 of `sorting.cpp`). -/
def keyRange (arr : List Record) : Nat :=
  ((getMinMax arr).2 - (getMinMax arr).1 + 1).toNat

/-- Stable counting sort, `countingSortStable` of `sorting.cpp` lines 18-47:
empty input returns unchanged, otherwise one counting pass over the classes
`key - minVal`. -/
def countingSortStable (arr : List Record) : List Record :=
  match arr with
  | [] => []
  | _ :: _ => countingPass (keyIdx arr) (keyRange arr) arr

/-- Pigeonhole sort, `pigeonholeSort` of `sorting.cpp` lines 149-168: append
every record to the hole of its key class, then concatenate the holes in
ascending order. -/
def pigeonholeSort (arr : List Record) : List Record :=
  match arr with
  | [] => []
  | _ :: _ =>
    ((List.range (keyRange arr)).map (scatterLoop (keyIdx arr) arr fun _ => [])).flatten

/-- Common canonical form of the stable counting sort and the pigeonhole
sort: records distributed over the key classes in ascending order. -/
def keyDistribute (arr : List Record) : List Record :=
  distribute (keyIdx arr) (keyRange arr) arr

theorem keyRange_pos (arr : List Record) : 0 < keyRange arr := by
  unfold keyRange
  cases arr with
  | nil => simp [getMinMax]
  | cons a t =>
    have := getMinMax_le (a :: t) (by simp)
    omega

theorem keyIdx_lt (arr : List Record) : ∀ r ∈ arr, keyIdx arr r < keyRange arr := by
  intro r hr
  have := getMinMax_bounds arr r hr
  unfold keyIdx keyRange
  omega

theorem keyIdx_key (arr : List Record) (r : Record) (hr : r ∈ arr) (j : Nat)
    (hj : keyIdx arr r = j) : r.key = (getMinMax arr).1 + j := by
  have := getMinMax_bounds arr r hr
  unfold keyIdx at hj
  omega

theorem countingSortStable_eq (arr : List Record) :
    countingSortStable arr = keyDistribute arr := by
  cases arr with
  | nil => simp [countingSortStable, keyDistribute, distribute]
  | cons a t =>
    show countingPass (keyIdx (a :: t)) (keyRange (a :: t)) (a :: t) = _
    exact countingPass_eq_distribute _ _ _ (keyIdx_lt (a :: t)) (keyRange_pos (a :: t))

theorem pigeonholeSort_eq (arr : List Record) :
    pigeonholeSort arr = keyDistribute arr := by
  cases arr with
  | nil => simp [pigeonholeSort, keyDistribute, distribute]
  | cons a t =>
    show ((List.range (keyRange (a :: t))).map
        (scatterLoop (keyIdx (a :: t)) (a :: t) fun _ => [])).flatten = _
    unfold keyDistribute distribute
    congr 1
    refine List.map_congr_left ?_
    intro j _
    rw [scatterLoop_eq]
    simp

theorem keyDistribute_perm (arr : List Record) : (keyDistribute arr).Perm arr :=
  distribute_perm _ _ _ (keyIdx_lt arr)

theorem keyDistribute_sorted (arr : List Record) :
    List.Pairwise (fun a b => a.key ≤ b.key) (keyDistribute arr) := by
  refine distribute_sorted _ _ _ _ (fun j => ?_) (fun a ha b hb hlt => ?_)
  · refine List.pairwise_of_forall_mem_list ?_
    intro a ha b hb
    rw [List.mem_filter] at ha hb
    have h1 := keyIdx_key arr a ha.1 j (by simpa using ha.2)
    have h2 := keyIdx_key arr b hb.1 j (by simpa using hb.2)
    omega
  · have h1 := getMinMax_bounds arr a ha
    have h2 := getMinMax_bounds arr b hb
    unfold keyIdx at hlt
    omega

theorem keyDistribute_filter (arr : List Record) (v : Int) :
    (keyDistribute arr).filter (fun r => r.key = v) = arr.filter fun r => r.key = v := by
  by_cases hv : v ≤ (getMinMax arr).2
  · refine distribute_filter _ _ _ _ ((v - (getMinMax arr).1).toNat) ?_ ?_
    · unfold keyRange
      cases arr with
      | nil =>
        simp [getMinMax] at hv ⊢
        omega
      | cons a t =>
        have := getMinMax_le (a :: t) (by simp)
        omega
    · intro r hr hP
      have hkey : r.key = v := by simpa using hP
      unfold keyIdx
      rw [hkey]
  · have h1 : arr.filter (fun r => r.key = v) = [] := by
      rw [List.filter_eq_nil_iff]
      intro r hr
      have := getMinMax_bounds arr r hr
      simp only [decide_eq_true_eq]
      omega
    have h2 : (keyDistribute arr).filter (fun r => r.key = v) = [] := by
      rw [List.filter_eq_nil_iff]
      intro r hr
      have hmem : r ∈ arr := (keyDistribute_perm arr).mem_iff.mp hr
      have := getMinMax_bounds arr r hmem
      simp only [decide_eq_true_eq]
      omega
    rw [h1, h2]

/-- Two key-sorted lists with identical per-key filters are equal: the
stable sorted form of a list is unique. -/
theorem eq_of_sorted_of_filter_eq :
    ∀ (l l' : List Record),
      List.Pairwise (fun a b => a.key ≤ b.key) l →
      List.Pairwise (fun a b => a.key ≤ b.key) l' →
      (∀ v : Int, (l.filter fun r => r.key = v) = l'.filter fun r => r.key = v) →
      l = l' := by
  intro l
  induction l with
  | nil =>
    intro l' _ _ hfil
    cases l' with
    | nil => rfl
    | cons b t' =>
      exfalso
      have h := hfil b.key
      have hb : b ∈ (b :: t').filter fun r => r.key = b.key := by
        rw [List.mem_filter]
        exact ⟨List.mem_cons_self b t', by simp⟩
      rw [← h] at hb
      simp at hb
  | cons a t ih =>
    intro l' hl hl' hfil
    cases l' with
    | nil =>
      exfalso
      have h := hfil a.key
      have ha : a ∈ (a :: t).filter fun r => r.key = a.key := by
        rw [List.mem_filter]
        exact ⟨List.mem_cons_self a t, by simp⟩
      rw [h] at ha
      simp at ha
    | cons b t' =>
      have hkey : a.key = b.key := by
        have h1 := hfil a.key
        have ha_mem : a ∈ (b :: t').filter fun r => r.key = a.key := by
          rw [← h1, List.mem_filter]
          exact ⟨List.mem_cons_self a t, by simp⟩
        rw [List.mem_filter] at ha_mem
        have hble : b.key ≤ a.key := by
          rcases List.mem_cons.mp ha_mem.1 with h | h
          · rw [h]
          · exact (List.pairwise_cons.mp hl').1 a h
        have h2 := hfil b.key
        have hb_mem : b ∈ (a :: t).filter fun r => r.key = b.key := by
          rw [h2, List.mem_filter]
          exact ⟨List.mem_cons_self b t', by simp⟩
        rw [List.mem_filter] at hb_mem
        have hale : a.key ≤ b.key := by
          rcases List.mem_cons.mp hb_mem.1 with h | h
          · rw [h]
          · exact (List.pairwise_cons.mp hl).1 b h
        omega
      have hfa := hfil a.key
      rw [List.filter_cons, List.filter_cons,
        if_pos (by simp : decide (a.key = a.key) = true),
        if_pos (by simp [hkey] : decide (b.key = a.key) = true)] at hfa
      injection hfa with hab htail
      subst hab
      have htails : t = t' := by
        refine ih t' (List.pairwise_cons.mp hl).2 (List.pairwise_cons.mp hl').2 ?_
        intro v
        by_cases hv : v = a.key
        · subst hv
          exact htail
        · have h := hfil v
          rwa [List.filter_cons, List.filter_cons,
            if_neg (by simp; omega : ¬ decide (a.key = v) = true),
            if_neg (by simp; omega : ¬ decide (a.key = v) = true)] at h
      rw [htails]

/-- Key overwrite loop of the unstable counting sort (lines 64-75 of
`sorting.cpp`): write a key sequence into the existing positions in order,
leaving every position's `id` field untouched. -/
def overwriteKeys : List Record → List Int → List Record
  | l, [] => l
  | [], _ :: _ => []
  | r :: rs, k :: ks => Record.mk k r.id :: overwriteKeys rs ks

/-- Ascending key sequence emitted by the rewrite loop of the unstable
counting sort (lines 66-75): for each class `i` in increasing order,
`count[i]` copies of the key `i + minVal`. -/
def expandHist (freq : Nat → Nat) (minVal : Int) (R : Nat) : List Int :=
  ((List.range R).map fun i => List.replicate (freq i) (minVal + i)).flatten

/-- Unstable counting sort, `countingSortUnstable` of `sorting.cpp` lines
50-76: frequency histogram, then overwrite the keys in place in ascending
order while the ids stay at their original positions. -/
def countingSortUnstable (arr : List Record) : List Record :=
  match arr with
  | [] => []
  | _ :: _ =>
    overwriteKeys arr
      (expandHist (bumpLoop (keyIdx arr) arr fun _ => 0) (getMinMax arr).1 (keyRange arr))

theorem overwriteKeys_map_id :
    ∀ (l : List Record) (ks : List Int),
      (overwriteKeys l ks).map Record.id = l.map Record.id := by
  intro l
  induction l with
  | nil =>
    intro ks
    cases ks <;> rfl
  | cons r rs ih =>
    intro ks
    cases ks with
    | nil => rfl
    | cons k ks' =>
      show Record.id (Record.mk k r.id) :: (overwriteKeys rs ks').map Record.id = _
      rw [ih ks']
      rfl

theorem overwriteKeys_map_key :
    ∀ (l : List Record) (ks : List Int), ks.length = l.length →
      (overwriteKeys l ks).map Record.key = ks := by
  intro l
  induction l with
  | nil =>
    intro ks hks
    cases ks with
    | nil => rfl
    | cons k ks' => simp at hks
  | cons r rs ih =>
    intro ks hks
    cases ks with
    | nil => simp at hks
    | cons k ks' =>
      show Record.key (Record.mk k r.id) :: (overwriteKeys rs ks').map Record.key = _
      rw [ih ks' (by simpa using hks)]

theorem sum_classCount_eq_lowCount (f : Record → Nat) (R : Nat) (l : List Record) :
    ((List.range R).map fun i => classCount f i l).sum = lowCount f R l := by
  induction R with
  | zero => simp [lowCount_zero]
  | succ R ih =>
    rw [List.range_succ, List.map_append, List.sum_append, ih, lowCount_add_class]
    simp

theorem expandHist_length (f : Record → Nat) (R : Nat) (l : List Record)
    (minVal : Int) (hf : ∀ r ∈ l, f r < R) :
    (expandHist (fun i => classCount f i l) minVal R).length = l.length := by
  rw [expandHist, List.length_flatten, List.map_map]
  have hcomp : (List.range R).map (List.length ∘ fun i => List.replicate (classCount f i l)
      (minVal + i)) = (List.range R).map fun i => classCount f i l := by
    refine List.map_congr_left ?_
    intro i _
    simp
  rw [hcomp, sum_classCount_eq_lowCount, lowCount_eq_length f l hf]

theorem count_map_key (v : Int) (l : List Record) :
    List.count v (l.map Record.key) = (l.filter fun r => r.key = v).length := by
  induction l with
  | nil => rfl
  | cons r t ih =>
    rw [List.map_cons, List.filter_cons, List.count_cons]
    by_cases h : r.key = v <;> simp [h, ih]

/-- Keys of `expandHist` over the key-class histogram form a permutation of
the original keys. -/
theorem expandHist_perm (arr : List Record) :
    (expandHist (fun i => classCount (keyIdx arr) i arr) (getMinMax arr).1
      (keyRange arr)).Perm (arr.map Record.key) := by
  rw [List.perm_iff_count]
  intro v
  rw [expandHist, List.count_flatten, List.map_map]
  have hcomp : (List.range (keyRange arr)).map ((fun bl => List.count v bl) ∘ fun i =>
        List.replicate (classCount (keyIdx arr) i arr) ((getMinMax arr).1 + i))
      = (List.range (keyRange arr)).map fun i =>
        List.count v (List.replicate (classCount (keyIdx arr) i arr)
          ((getMinMax arr).1 + i)) := rfl
  rw [hcomp]
  by_cases hv : (getMinMax arr).1 ≤ v ∧ v < (getMinMax arr).1 + keyRange arr
  · set i₀ : Nat := (v - (getMinMax arr).1).toNat with hi₀
    have hi₀lt : i₀ < keyRange arr := by omega
    have hsum := sum_map_range_single (fun i =>
      List.count v (List.replicate (classCount (keyIdx arr) i arr)
        ((getMinMax arr).1 + i))) (keyRange arr) i₀ hi₀lt ?zeros
    case zeros =>
      intro j h1 h2
      simp only [List.count_replicate]
      rw [if_neg (by simp only [beq_iff_eq]; omega)]
    rw [hsum]
    simp only [List.count_replicate]
    rw [if_pos (by simp only [beq_iff_eq]; omega), count_map_key]
    unfold classCount
    refine congrArg List.length (List.filter_congr ?_)
    intro r hr
    have hb := getMinMax_bounds arr r hr
    unfold keyIdx
    simp only [decide_eq_decide]
    constructor
    · intro h
      omega
    · intro h
      omega
  · have hz : ((List.range (keyRange arr)).map fun i =>
        List.count v (List.replicate (classCount (keyIdx arr) i arr)
          ((getMinMax arr).1 + i))).sum = 0 := by
      apply List.sum_eq_zero
      intro x hx
      rw [List.mem_map] at hx
      obtain ⟨i, hi1, hi2⟩ := hx
      rw [List.mem_range] at hi1
      rw [← hi2]
      simp only [List.count_replicate]
      rw [if_neg (by simp only [beq_iff_eq]; omega)]
    rw [hz]
    rw [count_map_key]
    symm
    rw [List.length_eq_zero, List.filter_eq_nil_iff]
    intro r hr
    have hb := getMinMax_bounds arr r hr
    have hrlt := keyIdx_lt arr r hr
    unfold keyIdx keyRange at hrlt
    unfold keyRange at hv
    simp only [decide_eq_true_eq]
    omega

/-- Keys of `expandHist` are pairwise non-decreasing. -/
theorem expandHist_sorted (freq : Nat → Nat) (minVal : Int) (R : Nat) :
    List.Pairwise (fun a b : Int => a ≤ b) (expandHist freq minVal R) := by
  rw [expandHist, List.pairwise_flatten]
  constructor
  · intro bl hbl
    rw [List.mem_map] at hbl
    obtain ⟨i, _, hi2⟩ := hbl
    rw [← hi2]
    rw [List.pairwise_replicate]
    right
    exact le_refl _
  · rw [List.pairwise_map]
    refine List.Pairwise.imp_of_mem ?_ (List.pairwise_lt_range R)
    intro i i' _ _ hlt x hx y hy
    rw [List.mem_replicate] at hx hy
    rw [hx.2, hy.2]
    omega

theorem countingSortUnstable_map_id (arr : List Record) :
    (countingSortUnstable arr).map Record.id = arr.map Record.id := by
  cases arr with
  | nil => rfl
  | cons a t => exact overwriteKeys_map_id (a :: t) _

theorem countingSortUnstable_keys (arr : List Record) :
    (countingSortUnstable arr).map Record.key
      = expandHist (fun i => classCount (keyIdx arr) i arr) (getMinMax arr).1
          (keyRange arr) := by
  cases arr with
  | nil => simp [countingSortUnstable, expandHist, classCount, keyRange, getMinMax]
  | cons a t =>
    have hfreq : (bumpLoop (keyIdx (a :: t)) (a :: t) fun _ => 0)
        = fun i => classCount (keyIdx (a :: t)) i (a :: t) := by
      funext i
      rw [bumpLoop_eq]
      omega
    show (overwriteKeys (a :: t) _).map Record.key = _
    rw [hfreq]
    refine overwriteKeys_map_key (a :: t) _ ?_
    exact expandHist_length (keyIdx (a :: t)) (keyRange (a :: t)) (a :: t)
      (getMinMax (a :: t)).1 (keyIdx_lt (a :: t))

theorem countingSortUnstable_keys_perm (arr : List Record) :
    ((countingSortUnstable arr).map Record.key).Perm (arr.map Record.key) := by
  rw [countingSortUnstable_keys]
  exact expandHist_perm arr

theorem countingSortUnstable_sorted (arr : List Record) :
    List.Pairwise (fun a b => a.key ≤ b.key) (countingSortUnstable arr) := by
  have h : List.Pairwise (fun a b : Int => a ≤ b)
      ((countingSortUnstable arr).map Record.key) := by
    rw [countingSortUnstable_keys]
    exact expandHist_sorted _ _ _
  exact List.pairwise_map.mp h

/-- Permutation follows from per-class filter preservation: counting any
record inside its own class. -/
theorem perm_of_filter_eq (g : Record → Int) (l l' : List Record)
    (h : ∀ v, (l.filter fun r => g r = v) = l'.filter fun r => g r = v) :
    l.Perm l' := by
  rw [List.perm_iff_count]
  intro x
  have hx := h (g x)
  have c1 : List.count x (l.filter fun r => g r = g x) = List.count x l :=
    List.count_filter (by simp)
  have c2 : List.count x (l'.filter fun r => g r = g x) = List.count x l' :=
    List.count_filter (by simp)
  rw [← c1, hx, c2]

/-- Digit extracted by a radix pass: `(key / exp) % 10` of lines 97 and 103
of `sorting.cpp`. The keys are non-negative whenever a pass runs (the shift
of line 87 guarantees it), where euclidean and C++ truncated division and
remainder agree. -/
def digitAt (exp : Nat) (r : Record) : Nat :=
  ((r.key / (exp : Int)) % 10).toNat

/-- One stable counting pass over the current digit (lines 92-107 of
`sorting.cpp`). -/
def radixPass (exp : Nat) (arr : List Record) : List Record :=
  countingPass (digitAt exp) 10 arr

/-- Digit loop of `radixSortLSD` (line 91 of `sorting.cpp`): keep running
passes while `maxKey / exp > 0`, multiplying `exp` by 10 each time. -/
def radixLoop (maxKey : Nat) (arr : List Record) (exp : Nat) (hexp : 0 < exp) :
    List Record :=
  if h : 0 < maxKey / exp then
    radixLoop maxKey (radixPass exp arr) (exp * 10) (by omega)
  else arr
termination_by maxKey / exp
decreasing_by
  rw [← Nat.div_div_eq_div_mul]
  exact Nat.div_lt_self h (by omega)

/-- LSD radix sort, `radixSortLSD` of `sorting.cpp` lines 79-114: shift the
keys up by `-minVal` when the minimum is negative, run base-10 LSD passes
starting at `exp = 1`, shift the keys back. -/
def radixSortLSD (arr : List Record) : List Record :=
  match arr with
  | [] => []
  | _ :: _ =>
    let shift : Int := if (getMinMax arr).1 < 0 then -(getMinMax arr).1 else 0
    let shifted := arr.map fun r => Record.mk (r.key + shift) r.id
    let maxKey : Nat := ((getMinMax arr).2 + shift).toNat
    let sorted := radixLoop maxKey shifted 1 Nat.one_pos
    if 0 < shift then sorted.map fun r => Record.mk (r.key - shift) r.id else sorted

theorem digitAt_lt (exp : Nat) (r : Record) : digitAt exp r < 10 := by
  unfold digitAt
  have h1 : 0 ≤ r.key / (exp : Int) % 10 := Int.emod_nonneg _ (by omega)
  have h2 : r.key / (exp : Int) % 10 < 10 := Int.emod_lt_of_pos _ (by omega)
  omega

theorem key_mod_decomp (K E : Nat) (hE : 0 < E) :
    (K : Int) % ((E : Int) * 10)
      = ((((K : Int) / (E : Int)) % 10).toNat : Int) * (E : Int)
          + (K : Int) % (E : Int) := by
  have e1 : ((K : Int) / (E : Int)) % 10 = ((K / E % 10 : Nat) : Int) := by
    rw [Int.ofNat_emod, Int.ofNat_ediv]
    norm_num
  rw [e1, Int.toNat_natCast]
  have e3 : (E : Int) * 10 = ((E * 10 : Nat) : Int) := by
    push_cast
    ring
  rw [e3, ← Int.ofNat_emod, ← Int.ofNat_emod]
  have h2 : K % (E * 10) = K / E % 10 * E + K % E := by
    have h := @Nat.mod_mul E 10 K
    rw [h, Nat.mul_comm]
    omega
  exact_mod_cast h2

theorem digitAt_decomp (exp : Nat) (hexp : 0 < exp) (r : Record) (hr : 0 ≤ r.key) :
    r.key % ((exp : Int) * 10)
      = ((digitAt exp r : Nat) : Int) * (exp : Int) + r.key % (exp : Int) := by
  have hK := Int.toNat_of_nonneg hr
  unfold digitAt
  rw [← hK]
  exact key_mod_decomp r.key.toNat exp hexp

theorem digitAt_eq_of_mod (exp : Nat) (hexp : 0 < exp) (r : Record) (hr : 0 ≤ r.key)
    (v : Int) (hv : r.key % ((exp : Int) * 10) = v) :
    ((digitAt exp r : Nat) : Int) = v / (exp : Int) := by
  have hd := digitAt_decomp exp hexp r hr
  rw [hv] at hd
  have hexpI : (0 : Int) < (exp : Int) := by exact_mod_cast hexp
  have h1 : 0 ≤ r.key % (exp : Int) := Int.emod_nonneg _ (by omega)
  have h2 : r.key % (exp : Int) < (exp : Int) := Int.emod_lt_of_pos _ hexpI
  rw [hd, Int.add_comm (((digitAt exp r : Nat) : Int) * (exp : Int)) (r.key % (exp : Int)),
    Int.add_mul_ediv_right _ _ (by omega : (exp : Int) ≠ 0),
    Int.ediv_eq_zero_of_lt h1 h2]
  omega

/-- One radix pass refines sortedness and stability from modulus `exp` to
modulus `exp * 10`: the loop invariant of the digit loop. -/
theorem radixPass_spec (exp : Nat) (hexp : 0 < exp) (l l₀ : List Record)
    (hnn : ∀ r ∈ l₀, 0 ≤ r.key)
    (hsort : List.Pairwise (fun a b => a.key % (exp : Int) ≤ b.key % (exp : Int)) l)
    (hstab : ∀ v : Int, (l.filter fun r => r.key % (exp : Int) = v)
        = l₀.filter fun r => r.key % (exp : Int) = v) :
    List.Pairwise (fun a b => a.key % ((exp : Int) * 10) ≤ b.key % ((exp : Int) * 10))
        (radixPass exp l)
    ∧ ∀ v : Int, ((radixPass exp l).filter fun r => r.key % ((exp : Int) * 10) = v)
        = l₀.filter fun r => r.key % ((exp : Int) * 10) = v := by
  have hperm : l.Perm l₀ := perm_of_filter_eq _ l l₀ hstab
  have hmem : ∀ r ∈ l, r ∈ l₀ := fun r hr => hperm.mem_iff.mp hr
  have hnnl : ∀ r ∈ l, 0 ≤ r.key := fun r hr => hnn r (hmem r hr)
  have hexpI : (0 : Int) < (exp : Int) := by exact_mod_cast hexp
  have hpass : radixPass exp l = distribute (digitAt exp) 10 l :=
    countingPass_eq_distribute _ _ _ (fun r _ => digitAt_lt exp r) (by omega)
  have hPQ : ∀ (r : Record) (v : Int), r.key % ((exp : Int) * 10) = v →
      r.key % (exp : Int) = v % (exp : Int) := by
    intro r v h
    rw [← h]
    exact (Int.emod_emod_of_dvd r.key ⟨10, rfl⟩).symm
  have hstep : ∀ (m : List Record) (v : Int),
      (m.filter fun r => r.key % ((exp : Int) * 10) = v)
        = ((m.filter fun r => r.key % (exp : Int) = v % (exp : Int)).filter
            fun r => r.key % ((exp : Int) * 10) = v) := by
    intro m v
    rw [List.filter_filter]
    refine List.filter_congr ?_
    intro r _
    by_cases hP : r.key % ((exp : Int) * 10) = v
    · have hQ := hPQ r v hP
      simp [hP, hQ]
    · simp [hP]
  constructor
  · rw [hpass]
    refine distribute_sorted _ _ _ _ (fun j => ?_) (fun a ha b hb hlt => ?_)
    · have hfil : List.Pairwise (fun a b => a.key % (exp : Int) ≤ b.key % (exp : Int))
          (l.filter fun r => digitAt exp r = j) := List.Pairwise.filter _ hsort
      refine List.Pairwise.imp_of_mem ?_ hfil
      intro a b ha hb hab
      rw [List.mem_filter] at ha hb
      have hda : digitAt exp a = j := by simpa using ha.2
      have hdb : digitAt exp b = j := by simpa using hb.2
      rw [digitAt_decomp exp hexp a (hnnl a ha.1), digitAt_decomp exp hexp b (hnnl b hb.1),
        hda, hdb]
      exact add_le_add_left hab _
    · have h1 := digitAt_decomp exp hexp a (hnnl a ha)
      have h2 := digitAt_decomp exp hexp b (hnnl b hb)
      have hma : a.key % (exp : Int) < (exp : Int) := Int.emod_lt_of_pos _ hexpI
      have hmb : 0 ≤ b.key % (exp : Int) := Int.emod_nonneg _ (by omega)
      have hcast : ((digitAt exp a : Nat) : Int) + 1 ≤ ((digitAt exp b : Nat) : Int) := by
        exact_mod_cast hlt
      have hmul : (((digitAt exp a : Nat) : Int) + 1) * (exp : Int)
          ≤ ((digitAt exp b : Nat) : Int) * (exp : Int) :=
        mul_le_mul_of_nonneg_right hcast (by omega)
      rw [add_mul, one_mul] at hmul
      rw [h1, h2]
      linarith [hmul, hma, hmb]
  · intro v
    rw [hpass]
    by_cases hex : ∃ r ∈ l, r.key % ((exp : Int) * 10) = v
    · obtain ⟨r₀, hr₀, hv₀⟩ := hex
      have hd₀ : ((digitAt exp r₀ : Nat) : Int) = v / (exp : Int) :=
        digitAt_eq_of_mod exp hexp r₀ (hnnl r₀ hr₀) v hv₀
      have hfil1 : (distribute (digitAt exp) 10 l).filter
            (fun r => r.key % ((exp : Int) * 10) = v)
          = l.filter fun r => r.key % ((exp : Int) * 10) = v := by
        refine distribute_filter _ _ _ _ (digitAt exp r₀) (digitAt_lt exp r₀) ?_
        intro r hr hP
        have hPr : r.key % ((exp : Int) * 10) = v := by simpa using hP
        have hd := digitAt_eq_of_mod exp hexp r (hnnl r hr) v hPr
        have heq : ((digitAt exp r : Nat) : Int) = ((digitAt exp r₀ : Nat) : Int) := by
          rw [hd, hd₀]
        exact_mod_cast heq
      rw [hfil1, hstep l v, hstab (v % (exp : Int)), ← hstep l₀ v]
    · have hnil1 : (distribute (digitAt exp) 10 l).filter
          (fun r => r.key % ((exp : Int) * 10) = v) = [] := by
        rw [List.filter_eq_nil_iff]
        intro r hr hP
        refine hex ⟨r, ?_, by simpa using hP⟩
        exact (distribute_perm (digitAt exp) 10 l
          fun r _ => digitAt_lt exp r).mem_iff.mp hr
      have hnil2 : (l₀.filter fun r => r.key % ((exp : Int) * 10) = v) = [] := by
        rw [List.filter_eq_nil_iff]
        intro r hr hP
        exact hex ⟨r, hperm.mem_iff.mpr hr, by simpa using hP⟩
      rw [hnil1, hnil2]

/-- When every key is below the modulus, sortedness and stability modulo
`exp` are sortedness and stability outright. -/
theorem radix_exit (maxKey exp : Nat) (hexp : 0 < exp) (hlt : maxKey < exp)
    (l l₀ : List Record) (hnn : ∀ r ∈ l₀, 0 ≤ r.key)
    (hub : ∀ r ∈ l₀, r.key ≤ (maxKey : Int))
    (hsort : List.Pairwise (fun a b => a.key % (exp : Int) ≤ b.key % (exp : Int)) l)
    (hstab : ∀ v : Int, (l.filter fun r => r.key % (exp : Int) = v)
        = l₀.filter fun r => r.key % (exp : Int) = v) :
    List.Pairwise (fun a b => a.key ≤ b.key) l
    ∧ ∀ v : Int, (l.filter fun r => r.key = v) = l₀.filter fun r => r.key = v := by
  have hperm : l.Perm l₀ := perm_of_filter_eq _ l l₀ hstab
  have hmod : ∀ r ∈ l₀, r.key % (exp : Int) = r.key := by
    intro r hr
    refine Int.emod_eq_of_lt (hnn r hr) ?_
    have h1 := hub r hr
    have h2 : (maxKey : Int) < (exp : Int) := by exact_mod_cast hlt
    omega
  have hmodl : ∀ r ∈ l, r.key % (exp : Int) = r.key :=
    fun r hr => hmod r (hperm.mem_iff.mp hr)
  constructor
  · refine List.Pairwise.imp_of_mem ?_ hsort
    intro a b ha hb hab
    rwa [hmodl a ha, hmodl b hb] at hab
  · intro v
    have e1 : (l.filter fun r => r.key = v) = l.filter fun r => r.key % (exp : Int) = v := by
      refine List.filter_congr ?_
      intro r hr
      rw [hmodl r hr]
    have e2 : (l₀.filter fun r => r.key = v)
        = l₀.filter fun r => r.key % (exp : Int) = v := by
      refine List.filter_congr ?_
      intro r hr
      rw [hmod r hr]
    rw [e1, e2, hstab v]

/-- Invariant of the digit loop, by induction on the remaining digit count:
from a sequence sorted and stable modulo `exp`, the loop returns a sequence
sorted by key whose per-key filters match the original sequence. -/
theorem radixLoop_spec (maxKey : Nat) (l₀ : List Record)
    (hnn : ∀ r ∈ l₀, 0 ≤ r.key) (hub : ∀ r ∈ l₀, r.key ≤ (maxKey : Int)) :
    ∀ (fuel exp : Nat) (hexp : 0 < exp) (l : List Record), maxKey / exp ≤ fuel →
      List.Pairwise (fun a b => a.key % (exp : Int) ≤ b.key % (exp : Int)) l →
      (∀ v : Int, (l.filter fun r => r.key % (exp : Int) = v)
          = l₀.filter fun r => r.key % (exp : Int) = v) →
      List.Pairwise (fun a b => a.key ≤ b.key) (radixLoop maxKey l exp hexp)
      ∧ ∀ v : Int, ((radixLoop maxKey l exp hexp).filter fun r => r.key = v)
          = l₀.filter fun r => r.key = v := by
  intro fuel
  induction fuel with
  | zero =>
    intro exp hexp l hfuel hsort hstab
    have hcond : ¬ 0 < maxKey / exp := by omega
    rw [radixLoop, dif_neg hcond]
    have hlt : maxKey < exp := by
      by_contra hc
      have h1 : 1 ≤ maxKey / exp := (Nat.one_le_div_iff hexp).mpr (by omega : exp ≤ maxKey)
      omega
    exact radix_exit maxKey exp hexp hlt l l₀ hnn hub hsort hstab
  | succ fuel ih =>
    intro exp hexp l hfuel hsort hstab
    rw [radixLoop]
    by_cases hcond : 0 < maxKey / exp
    · rw [dif_pos hcond]
      obtain ⟨hs, hst⟩ := radixPass_spec exp hexp l l₀ hnn hsort hstab
      refine ih (exp * 10) (by omega) (radixPass exp l) ?_ ?_ ?_
      · rw [← Nat.div_div_eq_div_mul]
        have := Nat.div_lt_self hcond (show 1 < 10 by omega)
        omega
      · push_cast
        exact hs
      · push_cast
        exact hst
    · rw [dif_neg hcond]
      have hlt : maxKey < exp := by
        by_contra hc
        have h1 : 1 ≤ maxKey / exp := (Nat.one_le_div_iff hexp).mpr (by omega : exp ≤ maxKey)
        omega
      exact radix_exit maxKey exp hexp hlt l l₀ hnn hub hsort hstab

theorem map_shift_unshift (sh : Int) (l : List Record) :
    ((l.map fun r => Record.mk (r.key + sh) r.id).map
      fun r => Record.mk (r.key - sh) r.id) = l := by
  induction l with
  | nil => rfl
  | cons x xs ih =>
    rw [List.map_cons, List.map_cons, ih]
    show Record.mk (x.key + sh - sh) x.id :: xs = x :: xs
    rw [Int.add_sub_cancel]

theorem map_shift_zero (l : List Record) :
    (l.map fun r => Record.mk (r.key + 0) r.id) = l := by
  induction l with
  | nil => rfl
  | cons x xs ih =>
    rw [List.map_cons, ih]
    show Record.mk (x.key + 0) x.id :: xs = x :: xs
    rw [Int.add_zero]

/-- Running the digit loop from `exp = 1` on the shifted sequence yields a
key-sorted sequence whose per-key filters match the shifted sequence. -/
theorem radixLoop_shift_spec (A : List Record) (sh : Int) (maxKey : Nat)
    (hnn : ∀ r ∈ A, 0 ≤ r.key + sh)
    (hub : ∀ r ∈ A, r.key + sh ≤ (maxKey : Int)) :
    List.Pairwise (fun a b => a.key ≤ b.key)
      (radixLoop maxKey (A.map fun r => Record.mk (r.key + sh) r.id) 1 Nat.one_pos)
    ∧ ∀ v : Int,
      ((radixLoop maxKey (A.map fun r => Record.mk (r.key + sh) r.id) 1
          Nat.one_pos).filter fun r => r.key = v)
        = (A.map fun r => Record.mk (r.key + sh) r.id).filter fun r => r.key = v := by
  have hnnB : ∀ r ∈ A.map fun r => Record.mk (r.key + sh) r.id, 0 ≤ r.key := by
    intro r hr
    rw [List.mem_map] at hr
    obtain ⟨s, hs, rfl⟩ := hr
    exact hnn s hs
  have hubB : ∀ r ∈ A.map fun r => Record.mk (r.key + sh) r.id, r.key ≤ (maxKey : Int) := by
    intro r hr
    rw [List.mem_map] at hr
    obtain ⟨s, hs, rfl⟩ := hr
    exact hub s hs
  refine radixLoop_spec maxKey _ hnnB hubB maxKey 1 Nat.one_pos _ ?_ ?_ ?_
  · simp
  · refine List.pairwise_of_forall_mem_list ?_
    intro x _ y _
    simp [Int.emod_one]
  · intro v
    rfl

/-- Full specification of the LSD radix sort: the output is key-sorted and
every per-key filter matches the input. -/
theorem radixSortLSD_spec (arr : List Record) :
    List.Pairwise (fun a b => a.key ≤ b.key) (radixSortLSD arr)
    ∧ ∀ v : Int, ((radixSortLSD arr).filter fun r => r.key = v)
        = arr.filter fun r => r.key = v := by
  cases arr with
  | nil => exact ⟨List.Pairwise.nil, fun v => rfl⟩
  | cons a t =>
    have hkey := getMinMax_bounds (a :: t)
    set mn := (getMinMax (a :: t)).1 with hmn
    set mx := (getMinMax (a :: t)).2 with hmx
    set sh : Int := if mn < 0 then -mn else 0 with hsh
    have hsh0 : 0 ≤ sh := by
      rw [hsh]
      split <;> omega
    have hnn : ∀ r ∈ (a :: t), 0 ≤ r.key + sh := by
      intro r hr
      have h1 := hkey r hr
      rw [hsh]
      split <;> omega
    have hmxpos : 0 ≤ mx + sh := by
      have h1 := hkey a (List.mem_cons_self a t)
      have h2 := hnn a (List.mem_cons_self a t)
      omega
    have hub : ∀ r ∈ (a :: t), r.key + sh ≤ (((mx + sh).toNat : Nat) : Int) := by
      intro r hr
      have h1 := hkey r hr
      omega
    obtain ⟨hs, hf⟩ := radixLoop_shift_spec (a :: t) sh (mx + sh).toNat hnn hub
    show List.Pairwise (fun a b => a.key ≤ b.key)
        (if 0 < sh then
          (radixLoop (mx + sh).toNat ((a :: t).map fun r => Record.mk (r.key + sh) r.id) 1
            Nat.one_pos).map fun r => Record.mk (r.key - sh) r.id
        else
          radixLoop (mx + sh).toNat ((a :: t).map fun r => Record.mk (r.key + sh) r.id) 1
            Nat.one_pos)
      ∧ ∀ v : Int,
        ((if 0 < sh then
          (radixLoop (mx + sh).toNat ((a :: t).map fun r => Record.mk (r.key + sh) r.id) 1
            Nat.one_pos).map fun r => Record.mk (r.key - sh) r.id
        else
          radixLoop (mx + sh).toNat ((a :: t).map fun r => Record.mk (r.key + sh) r.id) 1
            Nat.one_pos).filter fun r => r.key = v)
          = (a :: t).filter fun r => r.key = v
    by_cases hcase : 0 < sh
    · rw [if_pos hcase]
      constructor
      · rw [List.pairwise_map]
        refine hs.imp ?_
        intro x y hxy
        show x.key - sh ≤ y.key - sh
        omega
      · intro v
        rw [List.filter_map]
        have e1 : ((radixLoop (mx + sh).toNat
              ((a :: t).map fun r => Record.mk (r.key + sh) r.id) 1 Nat.one_pos).filter
              ((fun r => decide (r.key = v)) ∘ fun r => Record.mk (r.key - sh) r.id))
            = (radixLoop (mx + sh).toNat
              ((a :: t).map fun r => Record.mk (r.key + sh) r.id) 1 Nat.one_pos).filter
              fun r => r.key = v + sh := by
          refine List.filter_congr ?_
          intro r _
          show decide (r.key - sh = v) = decide (r.key = v + sh)
          rw [decide_eq_decide]
          omega
        rw [e1, hf (v + sh), List.filter_map]
        have e2 : ((a :: t).filter
              ((fun r => decide (r.key = v + sh)) ∘ fun r => Record.mk (r.key + sh) r.id))
            = (a :: t).filter fun r => r.key = v := by
          refine List.filter_congr ?_
          intro r _
          show decide (r.key + sh = v + sh) = decide (r.key = v)
          rw [decide_eq_decide]
          omega
        rw [e2]
        exact map_shift_unshift sh _
    · rw [if_neg hcase]
      have hsh_eq : sh = 0 := by omega
      rw [hsh_eq] at hs hf ⊢
      rw [map_shift_zero] at hs hf ⊢
      exact ⟨hs, hf⟩

/-- Insertion step of the stable-sort model: place `x` before the first
element whose key is not below `x.key`. -/
def insertByKey (x : Record) : List Record → List Record
  | [] => [x]
  | y :: ys => if x.key ≤ y.key then x :: y :: ys else y :: insertByKey x ys

/-- Models the `std::stable_sort(buckets[i].begin(), buckets[i].end(), a.key < b.key)`
call of `bucketSort` (lines 137-140 of `sorting.cpp`). The C++ standard fixes
the call's observable behaviour — sorted by key, equal keys keep their
relative order — which any stable sorting algorithm realises and which
`eq_of_sorted_of_filter_eq` shows to be unique; insertion sort realises it
here. -/
def stableSortByKey : List Record → List Record
  | [] => []
  | x :: xs => insertByKey x (stableSortByKey xs)

theorem mem_insertByKey (x z : Record) :
    ∀ (l : List Record), z ∈ insertByKey x l ↔ z = x ∨ z ∈ l := by
  intro l
  induction l with
  | nil => simp [insertByKey]
  | cons y ys ih =>
    rw [insertByKey]
    by_cases h : x.key ≤ y.key
    · rw [if_pos h]
      simp [List.mem_cons]
    · rw [if_neg h]
      simp [List.mem_cons, ih]
      tauto

theorem insertByKey_sorted (x : Record) (l : List Record)
    (hl : List.Pairwise (fun a b => a.key ≤ b.key) l) :
    List.Pairwise (fun a b => a.key ≤ b.key) (insertByKey x l) := by
  induction l with
  | nil => simp [insertByKey]
  | cons y ys ih =>
    rw [insertByKey]
    rw [List.pairwise_cons] at hl
    by_cases h : x.key ≤ y.key
    · rw [if_pos h]
      rw [List.pairwise_cons]
      constructor
      · intro z hz
        rcases List.mem_cons.mp hz with hz | hz
        · rw [hz]
          exact h
        · exact le_trans h (hl.1 z hz)
      · exact List.pairwise_cons.mpr hl
    · rw [if_neg h]
      rw [List.pairwise_cons]
      constructor
      · intro z hz
        rcases (mem_insertByKey x z ys).mp hz with hz | hz
        · rw [hz]
          omega
        · exact hl.1 z hz
      · exact ih hl.2

theorem insertByKey_filter (x : Record) (v : Int) :
    ∀ (l : List Record),
      ((insertByKey x l).filter fun r => r.key = v)
        = if x.key = v then x :: l.filter (fun r => r.key = v)
          else l.filter fun r => r.key = v := by
  intro l
  induction l with
  | nil =>
    rw [insertByKey]
    by_cases h : x.key = v <;> simp [h]
  | cons y ys ih =>
    rw [insertByKey]
    by_cases h : x.key ≤ y.key
    · rw [if_pos h]
      by_cases hx : x.key = v <;> simp [List.filter_cons, hx]
    · rw [if_neg h]
      rw [List.filter_cons, List.filter_cons, ih]
      by_cases hx : x.key = v
      · have hy : ¬ y.key = v := by omega
        simp [hx, hy]
      · simp [hx]

theorem stableSortByKey_sorted (l : List Record) :
    List.Pairwise (fun a b => a.key ≤ b.key) (stableSortByKey l) := by
  induction l with
  | nil => exact List.Pairwise.nil
  | cons x xs ih => exact insertByKey_sorted x (stableSortByKey xs) ih

theorem stableSortByKey_filter (l : List Record) (v : Int) :
    ((stableSortByKey l).filter fun r => r.key = v) = l.filter fun r => r.key = v := by
  induction l with
  | nil => rfl
  | cons x xs ih =>
    rw [stableSortByKey, insertByKey_filter, List.filter_cons]
    by_cases hx : x.key = v <;> simp [hx, ih]

/-- Clamped bucket index of `bucketSort` (lines 129-130 of `sorting.cpp`):
`(key - minVal) * bucketCount / range`, clamped down to `bucketCount - 1`.
The C++ computes the product and quotient in `long long`; keys are modelled
as unbounded integers, so no truncation occurs. -/
def bucketIdxInt (minVal : Int) (n : Nat) (range : Int) (k : Int) : Int :=
  if ((k - minVal) * n) / range ≥ n then n - 1 else ((k - minVal) * n) / range

/-- Bucket index of a record, as a natural number ready to address the
bucket vector. -/
def bucketIdx (arr : List Record) (r : Record) : Nat :=
  (bucketIdxInt (getMinMax arr).1 arr.length
    ((getMinMax arr).2 - (getMinMax arr).1 + 1) r.key).toNat

/-- Bucket sort, `bucketSort` of `sorting.cpp` lines 117-146: scatter the
records into `n = arr.length` buckets by scaled key, stable-sort each bucket
by key, concatenate the buckets in ascending order. -/
def bucketSort (arr : List Record) : List Record :=
  match arr with
  | [] => []
  | _ :: _ =>
    ((List.range arr.length).map fun i =>
      stableSortByKey (scatterLoop (bucketIdx arr) arr (fun _ => []) i)).flatten

theorem bucketIdxInt_nonneg (minVal : Int) (n : Nat) (range : Int) (k : Int)
    (hn : 0 < n) (hrange : 0 < range) (hk : minVal ≤ k) :
    0 ≤ bucketIdxInt minVal n range k := by
  unfold bucketIdxInt
  have h0 : 0 ≤ ((k - minVal) * n) / range :=
    Int.ediv_nonneg (mul_nonneg (by omega) (by positivity)) (by omega)
  split <;> omega

theorem bucketIdxInt_le (minVal : Int) (n : Nat) (range : Int) (k : Int)
    (hn : 0 < n) : bucketIdxInt minVal n range k ≤ (n : Int) - 1 := by
  unfold bucketIdxInt
  split <;> omega

theorem bucketIdxInt_mono (minVal : Int) (n : Nat) (range : Int) {k k' : Int}
    (hrange : 0 < range) (hkk : k ≤ k') :
    bucketIdxInt minVal n range k ≤ bucketIdxInt minVal n range k' := by
  unfold bucketIdxInt
  have hmul : (k - minVal) * n ≤ (k' - minVal) * n :=
    mul_le_mul_of_nonneg_right (by omega) (by positivity)
  have hdiv : ((k - minVal) * n) / range ≤ ((k' - minVal) * n) / range :=
    Int.ediv_le_ediv hrange hmul
  split <;> split <;> omega

theorem bucketIdx_lt (arr : List Record) (hne : arr ≠ []) :
    ∀ r ∈ arr, bucketIdx arr r < arr.length := by
  intro r hr
  have hn : 0 < arr.length := List.length_pos.mpr hne
  have h1 := bucketIdxInt_le (getMinMax arr).1 arr.length
    ((getMinMax arr).2 - (getMinMax arr).1 + 1) r.key hn
  unfold bucketIdx
  omega

theorem bucketIdx_key (arr : List Record) (r : Record) :
    bucketIdx arr r
      = (bucketIdxInt (getMinMax arr).1 arr.length
          ((getMinMax arr).2 - (getMinMax arr).1 + 1) r.key).toNat := rfl

theorem bucketIdx_mono (arr : List Record) (hne : arr ≠ []) {x y : Record}
    (h : x.key ≤ y.key) : bucketIdx arr x ≤ bucketIdx arr y := by
  have hrange : (0 : Int) < (getMinMax arr).2 - (getMinMax arr).1 + 1 := by
    have := getMinMax_le arr hne
    omega
  have := bucketIdxInt_mono (getMinMax arr).1 arr.length
    ((getMinMax arr).2 - (getMinMax arr).1 + 1) hrange h
  unfold bucketIdx
  omega

theorem bucketSort_sorted (arr : List Record) :
    List.Pairwise (fun a b => a.key ≤ b.key) (bucketSort arr) := by
  cases arr with
  | nil => exact List.Pairwise.nil
  | cons a t =>
    have hne : (a :: t) ≠ [] := by simp
    show List.Pairwise _ (((List.range (a :: t).length).map fun i =>
      stableSortByKey (scatterLoop (bucketIdx (a :: t)) (a :: t) (fun _ => []) i)).flatten)
    rw [List.pairwise_flatten]
    constructor
    · intro bl hbl
      rw [List.mem_map] at hbl
      obtain ⟨j, _, hj2⟩ := hbl
      rw [← hj2]
      exact stableSortByKey_sorted _
    · rw [List.pairwise_map]
      refine List.Pairwise.imp_of_mem ?_ (List.pairwise_lt_range _)
      intro j j' _ _ hlt x hx y hy
      have hxb : x ∈ (a :: t).filter fun r => bucketIdx (a :: t) r = j := by
        have hperm := perm_of_filter_eq (fun r => r.key) _ _
          (stableSortByKey_filter (scatterLoop (bucketIdx (a :: t)) (a :: t) (fun _ => []) j))
        have := hperm.mem_iff.mp hx
        rwa [scatterLoop_eq, List.nil_append] at this
      have hyb : y ∈ (a :: t).filter fun r => bucketIdx (a :: t) r = j' := by
        have hperm := perm_of_filter_eq (fun r => r.key) _ _
          (stableSortByKey_filter (scatterLoop (bucketIdx (a :: t)) (a :: t) (fun _ => []) j'))
        have := hperm.mem_iff.mp hy
        rwa [scatterLoop_eq, List.nil_append] at this
      rw [List.mem_filter] at hxb hyb
      have hxj : bucketIdx (a :: t) x = j := by simpa using hxb.2
      have hyj : bucketIdx (a :: t) y = j' := by simpa using hyb.2
      rcases le_or_lt x.key y.key with hle | hgt
      · exact hle
      · exfalso
        have := bucketIdx_mono (a :: t) hne (le_of_lt hgt)
        omega

theorem bucketSort_filter (arr : List Record) (v : Int) :
    ((bucketSort arr).filter fun r => r.key = v) = arr.filter fun r => r.key = v := by
  cases arr with
  | nil => rfl
  | cons a t =>
    have hne : (a :: t) ≠ [] := by simp
    have hn : 0 < (a :: t).length := List.length_pos.mpr hne
    show ((((List.range (a :: t).length).map fun i =>
        stableSortByKey (scatterLoop (bucketIdx (a :: t)) (a :: t) (fun _ => []) i)).flatten).filter
        fun r => r.key = v) = (a :: t).filter fun r => r.key = v
    rw [List.filter_flatten, List.map_map]
    have hblock : ∀ j : Nat, ((fun bl => List.filter (fun r => decide (r.key = v)) bl) ∘ fun i =>
        stableSortByKey (scatterLoop (bucketIdx (a :: t)) (a :: t) (fun _ => []) i)) j
        = ((a :: t).filter fun r => bucketIdx (a :: t) r = j).filter fun r => r.key = v := by
      intro j
      show (stableSortByKey (scatterLoop (bucketIdx (a :: t)) (a :: t) (fun _ => []) j)).filter
          (fun r => r.key = v) = _
      rw [stableSortByKey_filter, scatterLoop_eq, List.nil_append]
    rw [List.map_congr_left fun j _ => hblock j]
    set j₀ : Nat := (bucketIdxInt (getMinMax (a :: t)).1 (a :: t).length
      ((getMinMax (a :: t)).2 - (getMinMax (a :: t)).1 + 1) v).toNat with hj₀
    have hj₀lt : j₀ < (a :: t).length := by
      have h1 := bucketIdxInt_le (getMinMax (a :: t)).1 (a :: t).length
        ((getMinMax (a :: t)).2 - (getMinMax (a :: t)).1 + 1) v hn
      rw [hj₀]
      omega
    have hkey_idx : ∀ r : Record, r.key = v → bucketIdx (a :: t) r = j₀ := by
      intro r hr
      rw [bucketIdx_key, hr, hj₀]
    rw [flatten_map_range_single _ _ j₀ hj₀lt ?zeros]
    case zeros =>
      intro j h1 h2
      rw [List.filter_eq_nil_iff]
      intro r hr hPr
      rw [List.mem_filter] at hr
      have hkv : r.key = v := by simpa using hPr
      have hbj : bucketIdx (a :: t) r = j := by simpa using hr.2
      exact h2 (by rw [← hbj, hkey_idx r hkv])
    rw [List.filter_filter]
    refine List.filter_congr ?_
    intro r _
    by_cases hPr : r.key = v
    · have := hkey_idx r hPr
      simp [hPr, this]
    · simp [hPr]

theorem bucketSort_perm (arr : List Record) : (bucketSort arr).Perm arr :=
  perm_of_filter_eq (fun r => r.key) _ _ (bucketSort_filter arr)

/-- Scan loop of the correctness oracle `verify` of `main.cpp` (lines 58-65):
`prev` holds `arr[i-1]` and the list argument the records from `i` on. -/
def verifyLoop (checkStability : Bool) : Record → List Record → Bool
  | _, [] => true
  | prev, r :: rest =>
    if r.key < prev.key then false
    else if checkStability && r.key == prev.key && r.id < prev.id then false
    else verifyLoop checkStability r rest

/-- Correctness oracle `verify` of `main.cpp` lines 57-67: keys ascending,
and, when `checkStability` is set, no equal-key neighbour pair with a
decreasing id. -/
def verify (arr : List Record) (checkStability : Bool) : Bool :=
  match arr with
  | [] => true
  | a :: t => verifyLoop checkStability a t

theorem verifyLoop_iff (cs : Bool) :
    ∀ (t : List Record) (a : Record),
      verifyLoop cs a t = true ↔ List.Chain' (fun x y => x.key ≤ y.key ∧
        (cs = true → x.key = y.key → x.id ≤ y.id)) (a :: t) := by
  intro t
  induction t with
  | nil =>
    intro a
    simp [verifyLoop]
  | cons r rest ih =>
    intro a
    rw [verifyLoop, List.chain'_cons]
    by_cases h1 : r.key < a.key
    · rw [if_pos h1]
      constructor
      · intro hfalse
        simp at hfalse
      · rintro ⟨⟨hle, _⟩, _⟩
        omega
    · rw [if_neg h1]
      by_cases h2 : (cs && (r.key == a.key) && decide (r.id < a.id)) = true
      · rw [if_pos h2]
        simp only [Bool.and_eq_true, beq_iff_eq, decide_eq_true_eq] at h2
        obtain ⟨⟨hcs, hkeq⟩, hid⟩ := h2
        constructor
        · intro hfalse
          simp at hfalse
        · rintro ⟨⟨hle, himp⟩, _⟩
          have := himp hcs hkeq.symm
          omega
      · rw [if_neg h2]
        rw [ih r]
        constructor
        · intro hch
          refine ⟨⟨by omega, ?_⟩, hch⟩
          intro hcs hkeq
          simp only [Bool.and_eq_true, beq_iff_eq, decide_eq_true_eq] at h2
          have hnot : ¬ r.id < a.id := fun hid => h2 ⟨⟨hcs, hkeq.symm⟩, hid⟩
          omega
        · rintro ⟨_, hch⟩
          exact hch

/-- Adjacency characterisation of the oracle. -/
theorem verify_iff (arr : List Record) (cs : Bool) :
    verify arr cs = true ↔ List.Chain' (fun x y => x.key ≤ y.key ∧
      (cs = true → x.key = y.key → x.id ≤ y.id)) arr := by
  cases arr with
  | nil => simp [verify]
  | cons a t => exact verifyLoop_iff cs t a

theorem countingSortStable_sorted (arr : List Record) :
    List.Pairwise (fun a b => a.key ≤ b.key) (countingSortStable arr) := by
  rw [countingSortStable_eq]
  exact keyDistribute_sorted arr

theorem countingSortStable_filter (arr : List Record) (v : Int) :
    ((countingSortStable arr).filter fun r => r.key = v) = arr.filter fun r => r.key = v := by
  rw [countingSortStable_eq]
  exact keyDistribute_filter arr v

theorem pigeonholeSort_sorted (arr : List Record) :
    List.Pairwise (fun a b => a.key ≤ b.key) (pigeonholeSort arr) := by
  rw [pigeonholeSort_eq]
  exact keyDistribute_sorted arr

theorem pigeonholeSort_filter (arr : List Record) (v : Int) :
    ((pigeonholeSort arr).filter fun r => r.key = v) = arr.filter fun r => r.key = v := by
  rw [pigeonholeSort_eq]
  exact keyDistribute_filter arr v

theorem radixSortLSD_sorted (arr : List Record) :
    List.Pairwise (fun a b => a.key ≤ b.key) (radixSortLSD arr) :=
  (radixSortLSD_spec arr).1

theorem radixSortLSD_filter (arr : List Record) (v : Int) :
    ((radixSortLSD arr).filter fun r => r.key = v) = arr.filter fun r => r.key = v :=
  (radixSortLSD_spec arr).2 v

/-- When all keys equal `c`, a permutation with the key-`c` filter preserved
is the original list itself. -/
theorem sort_const_eq (l out : List Record) (c : Int) (hconst : ∀ r ∈ l, r.key = c)
    (hperm : out.Perm l)
    (hfil : (out.filter fun r => r.key = c) = l.filter fun r => r.key = c) :
    out = l := by
  have h1 : (l.filter fun r => r.key = c) = l :=
    List.filter_eq_self.mpr fun r hr => by simp [hconst r hr]
  have h2 : (out.filter fun r => r.key = c) = out :=
    List.filter_eq_self.mpr fun r hr => by simp [hconst r (hperm.mem_iff.mp hr)]
  rw [h1, h2] at hfil
  exact hfil

/-- Unfolding of `radixSortLSD` on a negative-minimum input: the uniform
shift `-minVal` is added to every key before the digit loop and subtracted
back afterwards. -/
theorem radixSortLSD_neg_shift (a : Record) (t : List Record)
    (h : (getMinMax (a :: t)).1 < 0) :
    radixSortLSD (a :: t)
      = (radixLoop ((getMinMax (a :: t)).2 + -(getMinMax (a :: t)).1).toNat
          ((a :: t).map fun r => Record.mk (r.key + -(getMinMax (a :: t)).1) r.id) 1
          Nat.one_pos).map fun r => Record.mk (r.key - -(getMinMax (a :: t)).1) r.id := by
  show (if 0 < (if (getMinMax (a :: t)).1 < 0 then -(getMinMax (a :: t)).1 else 0) then
      (radixLoop ((getMinMax (a :: t)).2
          + (if (getMinMax (a :: t)).1 < 0 then -(getMinMax (a :: t)).1 else 0)).toNat
        ((a :: t).map fun r => Record.mk
          (r.key + (if (getMinMax (a :: t)).1 < 0 then -(getMinMax (a :: t)).1 else 0)) r.id)
        1 Nat.one_pos).map fun r => Record.mk
          (r.key - (if (getMinMax (a :: t)).1 < 0 then -(getMinMax (a :: t)).1 else 0)) r.id
    else
      radixLoop ((getMinMax (a :: t)).2
          + (if (getMinMax (a :: t)).1 < 0 then -(getMinMax (a :: t)).1 else 0)).toNat
        ((a :: t).map fun r => Record.mk
          (r.key + (if (getMinMax (a :: t)).1 < 0 then -(getMinMax (a :: t)).1 else 0)) r.id)
        1 Nat.one_pos) = _
  rw [if_pos h]
  rw [if_pos (by omega : (0 : Int) < -(getMinMax (a :: t)).1)]

/-- C1: for every input sequence, each of the five sorts produces an output
whose multiset of keys equals the multiset of keys of the input — stated as
a permutation between the key lists, so no key is created, lost or
duplicated. -/
theorem claim_C1_multiset_preservation (arr : List Record) :
    ((countingSortStable arr).map Record.key).Perm (arr.map Record.key)
    ∧ ((countingSortUnstable arr).map Record.key).Perm (arr.map Record.key)
    ∧ ((radixSortLSD arr).map Record.key).Perm (arr.map Record.key)
    ∧ ((bucketSort arr).map Record.key).Perm (arr.map Record.key)
    ∧ ((pigeonholeSort arr).map Record.key).Perm (arr.map Record.key) := by
  refine ⟨?_, ?_, ?_, ?_, ?_⟩
  · rw [countingSortStable_eq]
    exact (keyDistribute_perm arr).map Record.key
  · exact countingSortUnstable_keys_perm arr
  · exact (perm_of_filter_eq (fun r => r.key) _ _ (radixSortLSD_spec arr).2).map Record.key
  · exact (bucketSort_perm arr).map Record.key
  · rw [pigeonholeSort_eq]
    exact (keyDistribute_perm arr).map Record.key

/-- C2: for every input sequence, after any of the five sorts the output
keys are non-decreasing: adjacent output records satisfy
`output[i].key ≤ output[i+1].key`. -/
theorem claim_C2_ascending (arr : List Record) :
    List.Chain' (fun a b => a.key ≤ b.key) (countingSortStable arr)
    ∧ List.Chain' (fun a b => a.key ≤ b.key) (countingSortUnstable arr)
    ∧ List.Chain' (fun a b => a.key ≤ b.key) (radixSortLSD arr)
    ∧ List.Chain' (fun a b => a.key ≤ b.key) (bucketSort arr)
    ∧ List.Chain' (fun a b => a.key ≤ b.key) (pigeonholeSort arr) :=
  ⟨(countingSortStable_sorted arr).chain', (countingSortUnstable_sorted arr).chain',
    (radixSortLSD_sorted arr).chain', (bucketSort_sorted arr).chain',
    (pigeonholeSort_sorted arr).chain'⟩

/-- C3: each of the four stability-preserving sorts preserves the input's
relative order within every run of equal keys — stated as: for every key
value, the subsequence of records carrying that key is unchanged. Proved for
all inputs, which covers in particular every input with duplicate keys. -/
theorem claim_C3_stability (arr : List Record) (v : Int) :
    ((countingSortStable arr).filter fun r => r.key = v)
        = (arr.filter fun r => r.key = v)
    ∧ ((radixSortLSD arr).filter fun r => r.key = v) = (arr.filter fun r => r.key = v)
    ∧ ((bucketSort arr).filter fun r => r.key = v) = (arr.filter fun r => r.key = v)
    ∧ ((pigeonholeSort arr).filter fun r => r.key = v) = arr.filter fun r => r.key = v :=
  ⟨countingSortStable_filter arr v, radixSortLSD_filter arr v, bucketSort_filter arr v,
    pigeonholeSort_filter arr v⟩

/-- C4: `countingSortUnstable` keeps every position's id unchanged — the
output has the input's length and the id sequence read off by position is
identical; only the key values are redistributed. -/
theorem claim_C4_unstable_ids (arr : List Record) :
    (countingSortUnstable arr).length = arr.length
    ∧ (countingSortUnstable arr).map Record.id = arr.map Record.id := by
  have h := countingSortUnstable_map_id arr
  constructor
  · have := congrArg List.length h
    simpa using this
  · exact h

/-- C5 as frozen is false: `verify` accepts an equal-key run whose ids are
equal, while the claim demands strictly increasing ids. At
`[{1, 7}, {1, 7}]` with the stability flag set, `verify` returns `true`
although the ids of the equal-key run are not strictly increasing. -/
theorem claim_C5_counterexample :
    verify [Record.mk 1 7, Record.mk 1 7] true = true
    ∧ ¬ (List.Chain' (fun a b => a.key ≤ b.key) [Record.mk 1 7, Record.mk 1 7]
        ∧ (true = true → List.Chain' (fun a b => a.key = b.key → a.id < b.id)
            [Record.mk 1 7, Record.mk 1 7])) := by
  constructor
  · decide
  · rintro ⟨h1, h2⟩
    have h3 := h2 rfl
    rw [List.chain'_cons] at h3
    have h4 := h3.1 rfl
    simp at h4

/-- C5 (amended): `verify` returns `true` iff keys are non-decreasing
throughout and, when the flag is set, the id values are non-decreasing (not
necessarily strictly increasing) within every run of equal keys — adjacent
formulation. -/
theorem claim_C5_verify_iff (arr : List Record) (cs : Bool) :
    verify arr cs = true ↔
      (List.Chain' (fun a b => a.key ≤ b.key) arr
        ∧ (cs = true → List.Chain' (fun a b => a.key = b.key → a.id ≤ b.id) arr)) := by
  rw [verify_iff]
  constructor
  · intro h
    constructor
    · exact h.imp fun a b hab => hab.1
    · intro hcs
      exact h.imp fun a b hab hk => hab.2 hcs hk
  · rintro ⟨h1, h2⟩
    by_cases hcs : cs = true
    · have h2' := h2 hcs
      rw [List.chain'_iff_get] at h1 h2' ⊢
      intro i hh
      exact ⟨h1 i hh, fun _ hk => h2' i hh hk⟩
    · rw [List.chain'_iff_get] at h1 ⊢
      intro i hh
      exact ⟨h1 i hh, fun hcs' _ => absurd hcs' hcs⟩

/-- C6: on inputs whose minimum key is negative, the stable counting sort
and the radix sort still produce an ascending permutation of the original
(negative) keys, and `radixSortLSD` is literally the digit loop run on keys
shifted up by `-minKey`, with the shift subtracted back afterwards. -/
theorem claim_C6_negative_keys (arr : List Record) (h : (getMinMax arr).1 < 0) :
    List.Chain' (fun a b => a.key ≤ b.key) (countingSortStable arr)
    ∧ ((countingSortStable arr).map Record.key).Perm (arr.map Record.key)
    ∧ List.Chain' (fun a b => a.key ≤ b.key) (radixSortLSD arr)
    ∧ ((radixSortLSD arr).map Record.key).Perm (arr.map Record.key)
    ∧ radixSortLSD arr
        = (radixLoop ((getMinMax arr).2 + -(getMinMax arr).1).toNat
            (arr.map fun r => Record.mk (r.key + -(getMinMax arr).1) r.id) 1
            Nat.one_pos).map fun r => Record.mk (r.key - -(getMinMax arr).1) r.id := by
  cases arr with
  | nil => simp [getMinMax] at h
  | cons a t =>
    refine ⟨(countingSortStable_sorted (a :: t)).chain', ?_,
      (radixSortLSD_sorted (a :: t)).chain', ?_, radixSortLSD_neg_shift a t h⟩
    · rw [countingSortStable_eq]
      exact (keyDistribute_perm (a :: t)).map Record.key
    · exact (perm_of_filter_eq (fun r => r.key) _ _
        (radixSortLSD_spec (a :: t)).2).map Record.key

theorem claim_C6_negative_keys_witness :
    ((getMinMax [Record.mk (-2) 0, Record.mk (-5) 1]).1 < 0)
    ∧ (List.Chain' (fun a b => a.key ≤ b.key)
        (countingSortStable [Record.mk (-2) 0, Record.mk (-5) 1])
      ∧ ((countingSortStable [Record.mk (-2) 0, Record.mk (-5) 1]).map Record.key).Perm
          ([Record.mk (-2) 0, Record.mk (-5) 1].map Record.key)
      ∧ List.Chain' (fun a b => a.key ≤ b.key)
          (radixSortLSD [Record.mk (-2) 0, Record.mk (-5) 1])
      ∧ ((radixSortLSD [Record.mk (-2) 0, Record.mk (-5) 1]).map Record.key).Perm
          ([Record.mk (-2) 0, Record.mk (-5) 1].map Record.key)
      ∧ radixSortLSD [Record.mk (-2) 0, Record.mk (-5) 1]
          = (radixLoop ((getMinMax [Record.mk (-2) 0, Record.mk (-5) 1]).2
                + -(getMinMax [Record.mk (-2) 0, Record.mk (-5) 1]).1).toNat
              ([Record.mk (-2) 0, Record.mk (-5) 1].map
                fun r => Record.mk (r.key + -(getMinMax [Record.mk (-2) 0, Record.mk (-5) 1]).1) r.id)
              1 Nat.one_pos).map
              fun r => Record.mk
                (r.key - -(getMinMax [Record.mk (-2) 0, Record.mk (-5) 1]).1) r.id) :=
  ⟨by decide, claim_C6_negative_keys [Record.mk (-2) 0, Record.mk (-5) 1] (by decide)⟩

/-- C7: on the empty sequence every one of the five sorts returns the empty
sequence, and `verify` returns `true` for either stability flag. -/
theorem claim_C7_empty (cs : Bool) :
    countingSortStable [] = [] ∧ countingSortUnstable [] = [] ∧ radixSortLSD [] = []
    ∧ bucketSort [] = [] ∧ pigeonholeSort [] = [] ∧ verify [] cs = true :=
  ⟨rfl, rfl, rfl, rfl, rfl, rfl⟩

/-- C8: when all keys are equal, each of the four stable sorts returns the
input unchanged, element for element. -/
theorem claim_C8_all_equal (arr : List Record) (c : Int) (hc : ∀ r ∈ arr, r.key = c) :
    countingSortStable arr = arr ∧ radixSortLSD arr = arr ∧ bucketSort arr = arr
    ∧ pigeonholeSort arr = arr := by
  refine ⟨?_, ?_, ?_, ?_⟩
  · refine sort_const_eq arr _ c hc ?_ (countingSortStable_filter arr c)
    rw [countingSortStable_eq]
    exact keyDistribute_perm arr
  · exact sort_const_eq arr _ c hc
      (perm_of_filter_eq (fun r => r.key) _ _ (radixSortLSD_spec arr).2)
      (radixSortLSD_filter arr c)
  · exact sort_const_eq arr _ c hc (bucketSort_perm arr) (bucketSort_filter arr c)
  · refine sort_const_eq arr _ c hc ?_ (pigeonholeSort_filter arr c)
    rw [pigeonholeSort_eq]
    exact keyDistribute_perm arr

theorem claim_C8_all_equal_witness :
    (∀ r ∈ [Record.mk 4 0, Record.mk 4 1, Record.mk 4 2], r.key = 4)
    ∧ (countingSortStable [Record.mk 4 0, Record.mk 4 1, Record.mk 4 2]
        = [Record.mk 4 0, Record.mk 4 1, Record.mk 4 2]
      ∧ radixSortLSD [Record.mk 4 0, Record.mk 4 1, Record.mk 4 2]
        = [Record.mk 4 0, Record.mk 4 1, Record.mk 4 2]
      ∧ bucketSort [Record.mk 4 0, Record.mk 4 1, Record.mk 4 2]
        = [Record.mk 4 0, Record.mk 4 1, Record.mk 4 2]
      ∧ pigeonholeSort [Record.mk 4 0, Record.mk 4 1, Record.mk 4 2]
        = [Record.mk 4 0, Record.mk 4 1, Record.mk 4 2]) :=
  ⟨by decide, claim_C8_all_equal [Record.mk 4 0, Record.mk 4 1, Record.mk 4 2] 4 (by decide)⟩

/-- C9: each of the four stable sorts is idempotent — sorting an already
sorted output again returns it unchanged, by uniqueness of the key-sorted
list with given per-key subsequences. -/
theorem claim_C9_idempotent (arr : List Record) :
    countingSortStable (countingSortStable arr) = countingSortStable arr
    ∧ radixSortLSD (radixSortLSD arr) = radixSortLSD arr
    ∧ bucketSort (bucketSort arr) = bucketSort arr
    ∧ pigeonholeSort (pigeonholeSort arr) = pigeonholeSort arr := by
  refine ⟨?_, ?_, ?_, ?_⟩
  · exact eq_of_sorted_of_filter_eq _ _ (countingSortStable_sorted _)
      (countingSortStable_sorted arr) (countingSortStable_filter (countingSortStable arr))
  · exact eq_of_sorted_of_filter_eq _ _ (radixSortLSD_sorted _)
      (radixSortLSD_sorted arr) (radixSortLSD_filter (radixSortLSD arr))
  · exact eq_of_sorted_of_filter_eq _ _ (bucketSort_sorted _)
      (bucketSort_sorted arr) (bucketSort_filter (bucketSort arr))
  · exact eq_of_sorted_of_filter_eq _ _ (pigeonholeSort_sorted _)
      (pigeonholeSort_sorted arr) (pigeonholeSort_filter (pigeonholeSort arr))

/-- C10: in `bucketSort`, for every record of a non-empty input the clamped
bucket index lies in `[0, bucketCount - 1]`, so the `Nat` index actually
used to address the bucket vector is below `bucketCount = arr.length` and
the scatter step never goes out of bounds. -/
theorem claim_C10_bucket_index_bounds (arr : List Record) (hne : arr ≠ [])
    (r : Record) (hr : r ∈ arr) :
    0 ≤ bucketIdxInt (getMinMax arr).1 arr.length
        ((getMinMax arr).2 - (getMinMax arr).1 + 1) r.key
    ∧ bucketIdxInt (getMinMax arr).1 arr.length
        ((getMinMax arr).2 - (getMinMax arr).1 + 1) r.key ≤ (arr.length : Int) - 1
    ∧ bucketIdx arr r < arr.length := by
  have hn : 0 < arr.length := List.length_pos.mpr hne
  have hrange : (0 : Int) < (getMinMax arr).2 - (getMinMax arr).1 + 1 := by
    have := getMinMax_le arr hne
    omega
  have hb := getMinMax_bounds arr r hr
  exact ⟨bucketIdxInt_nonneg _ _ _ _ hn hrange hb.1, bucketIdxInt_le _ _ _ _ hn,
    bucketIdx_lt arr hne r hr⟩

theorem claim_C10_bucket_index_bounds_witness :
    (([Record.mk 3 0, Record.mk 9 1] : List Record) ≠ []
      ∧ Record.mk 9 1 ∈ [Record.mk 3 0, Record.mk 9 1])
    ∧ (0 ≤ bucketIdxInt (getMinMax [Record.mk 3 0, Record.mk 9 1]).1
          ([Record.mk 3 0, Record.mk 9 1] : List Record).length
          ((getMinMax [Record.mk 3 0, Record.mk 9 1]).2
            - (getMinMax [Record.mk 3 0, Record.mk 9 1]).1 + 1) (Record.mk 9 1).key
      ∧ bucketIdxInt (getMinMax [Record.mk 3 0, Record.mk 9 1]).1
          ([Record.mk 3 0, Record.mk 9 1] : List Record).length
          ((getMinMax [Record.mk 3 0, Record.mk 9 1]).2
            - (getMinMax [Record.mk 3 0, Record.mk 9 1]).1 + 1) (Record.mk 9 1).key
          ≤ (([Record.mk 3 0, Record.mk 9 1] : List Record).length : Int) - 1
      ∧ bucketIdx [Record.mk 3 0, Record.mk 9 1] (Record.mk 9 1)
          < ([Record.mk 3 0, Record.mk 9 1] : List Record).length) :=
  ⟨⟨by decide, by decide⟩,
    claim_C10_bucket_index_bounds [Record.mk 3 0, Record.mk 9 1] (by decide)
      (Record.mk 9 1) (by decide)⟩
